import Mathlib

/-!
# matcha: ingestion, dedup ledger and digest assembly

A shallow embedding of the feed pipeline of `feeds_writer.go`, `summarize.go`,
`analyst.go` and the per-source loop of `main.go`, followed by the properties
established about it.

Conventions of the embedding.

* A Go `string` is an immutable byte sequence. It is embedded as `Str`, the list
  of its bytes, a byte being written as the character with the same code, so
  ASCII text is its own embedding and `len`, indexing and slicing are those of
  the list.
* The `seen` table is a list of rows in insertion order. `QueryRow` returns the
  first matching row.
* A Go panic or `log.Fatal` ends the process: functions that can reach one
  return `Option`, `none` being the aborted run.
* Network collaborators and library calls (article extraction, chat completion,
  HTML parsing, markup stripping) are fields of `Env`.
-/

namespace Matcha

/-- Go string: the list of its bytes. -/
abbrev Str := List Char

/-! ## Go string primitives -/

/-- Position of the first occurrence of `sub` in the given string, if any. -/
def indexAux (sub : Str) : Str → Option Nat
  | [] => if sub = [] then some 0 else none
  | c :: t => if sub.isPrefixOf (c :: t) then some 0 else (indexAux sub t).map (· + 1)

/-- Go `strings.Index(s, sub)`: byte index of the first occurrence, or -1. -/
def Index (s sub : Str) : Int :=
  match indexAux sub s with
  | some i => (i : Int)
  | none => -1

/-- Go `strings.Contains(s, sub)`. -/
def Contains (s sub : Str) : Bool :=
  (indexAux sub s).isSome

/-- Go slice expression `s[lo:hi]`; out-of-range bounds panic. -/
def slice (s : Str) (lo hi : Int) : Option Str :=
  if 0 ≤ lo ∧ lo ≤ hi ∧ hi ≤ (s.length : Int) then
    some ((s.drop lo.toNat).take (hi.toNat - lo.toNat))
  else none

/-- Go slice expression `s[lo:]`. -/
def sliceFrom (s : Str) (lo : Int) : Option Str :=
  slice s lo s.length

/-- Worker of `Replace`: the counter is the number of bytes of a match still to
be skipped. -/
def replaceAux (old new : Str) : Nat → Str → Str
  | _, [] => []
  | k + 1, _ :: t => replaceAux old new k t
  | 0, c :: t =>
    if old.isPrefixOf (c :: t) then new ++ replaceAux old new (old.length - 1) t
    else c :: replaceAux old new 0 t

/-- Go `strings.Replace(s, old, new, -1)` for a non-empty `old`: every
non-overlapping occurrence, left to right. -/
def Replace (s old new : Str) : Str :=
  replaceAux old new 0 s

/-- Value of a run of ASCII decimal digits, `none` when a byte is not a digit. -/
def digitsVal : Str → Nat → Option Nat
  | [], acc => some acc
  | c :: t, acc =>
    if '0' ≤ c ∧ c ≤ '9' then digitsVal t (acc * 10 + (c.toNat - '0'.toNat)) else none

/-- Outcome of the digit loop of `strconv.ParseUint`. -/
inductive UintResult where
  | ok (n : Nat)
  | syntaxError
  | rangeError
deriving DecidableEq

/-- Digit loop of `strconv.ParseUint(s, 10, 64)`: a byte that is not a decimal
digit is a syntax error; before a digit is added the value is tested against
the cutoff `maxUint64/10 + 1` and the sum against `maxUint64`. -/
def parseUintLoop : Str → Nat → UintResult
  | [], n => UintResult.ok n
  | c :: t, n =>
    if '0' ≤ c ∧ c ≤ '9' then
      (if n ≥ (2 ^ 64 - 1) / 10 + 1 then UintResult.rangeError
       else if n * 10 + (c.toNat - '0'.toNat) > 2 ^ 64 - 1 then UintResult.rangeError
       else parseUintLoop t (n * 10 + (c.toNat - '0'.toNat)))
    else UintResult.syntaxError

/-- A leading sign is taken off: the flag tells whether it was a minus. -/
def splitSign : Str → Bool × Str
  | '-' :: t => (true, t)
  | '+' :: t => (false, t)
  | s => (false, s)

/-- Go `strconv.ParseInt(s, 10, 0)` with the error dropped, for a 64-bit `int`:
a syntax error gives 0, a range error the nearest bound. -/
def parseIntValue (s : Str) : Int :=
  let signed : Bool × Str := splitSign s
  if signed.2 = [] then 0
  else
    match parseUintLoop signed.2 0 with
    | UintResult.syntaxError => 0
    | UintResult.rangeError => if signed.1 then -(2 : Int) ^ 63 else (2 : Int) ^ 63 - 1
    | UintResult.ok un =>
      if !signed.1 && decide (un ≥ 2 ^ 63) then (2 : Int) ^ 63 - 1
      else if signed.1 && decide (un > 2 ^ 63) then -(2 : Int) ^ 63
      else if signed.1 then -(un : Int) else (un : Int)

/-- Go `strconv.Atoi` with the error dropped (`n, _ := strconv.Atoi(s)`), for a
64-bit `int`: strings of 1 to 18 bytes take the fast path (optional sign, then
decimal digits, 0 on any other byte), the others go through `ParseInt`. -/
def Atoi (s : Str) : Int :=
  if 0 < s.length ∧ s.length < 19 then
    (let signed : Bool × Str := splitSign s
    if signed.2 = [] then 0
    else
      match digitsVal signed.2 0 with
      | none => 0
      | some n => if signed.1 then -(n : Int) else (n : Int))
  else parseIntValue s

/-- Go `strconv.Itoa` on a non-negative value. -/
def Itoa (n : Nat) : Str :=
  Nat.toDigits 10 n

/-! ## Data model -/

/-- Fields of `gofeed.Item` read by the pipeline. -/
structure Item where
  title : Str
  link : Str
  description : Str
  content : Str
deriving DecidableEq

/-- Fields of `gofeed.Feed` read by the pipeline. -/
structure Feed where
  title : Str
  link : Str
  feedLink : Str
  items : List Item
deriving DecidableEq

/-- Source description `RSS`. -/
structure RSS where
  url : Str
  limit : Int
  summarize : Bool
deriving DecidableEq

/-- Fields of `Config` read by the pipeline. -/
structure Config where
  SummaryArticleLengthLimit : Int
  Instapaper : Bool
  TerminalMode : Bool
  ReadingTime : Bool
  ShowImages : Bool
deriving DecidableEq

/-- Row of the `seen` table; the `summary` column is nullable. -/
structure SeenRow where
  url : Str
  date : Str
  summary : Option Str
deriving DecidableEq

/-- Ledger store. The `CREATE TABLE` statement of `seen` lives in `newDB`, which
is not among the sources, so whether `url` carries a uniqueness constraint is a
field of the state. `readFault` makes `QueryRow(...).Scan` fail with an error
other than `sql.ErrNoRows`. -/
structure DB where
  rows : List SeenRow
  uniqueUrl : Bool
  readFault : Bool
deriving DecidableEq

/-- The `Writer` interface: the three rendering methods. The `write` method is
the sink itself and is modelled by the list of bodies written. `writeFavicon`
returns `none` when the method panics. -/
structure Writer where
  writeLink : Str → Str → Bool → Str → Str
  writeSummary : Str → Bool → Str
  writeFavicon : Feed → Option Str

/-- External collaborators. `FromURL` is `readability.FromURL` (text content of
the article, `none` on error); `chat` is `CreateChatCompletion` (the message
contents of the returned choices, `none` on error); `Fields` is
`strings.Fields`; `stripHtmlRegex` and the result of
`ExtractImageTagFromHTML` on an item content (HTML parsing) are taken as
given; `ParseURL` is `gofeed.Parser.ParseURL` (`none` on error). -/
structure Env where
  FromURL : Str → Option Str
  chat : Str → Option (List Str)
  Fields : Str → List Str
  stripHtmlRegex : Str → Str
  imageTag : Str → Str
  ParseURL : Str → Option Feed

/-- Result of one enrichment task: the fragment, the ledger afterwards and the
texts sent to the summarization endpoint. -/
structure Outcome where
  fragment : Str
  db : DB
  llmCalls : List Str
deriving DecidableEq

/-! ## Dedup ledger (`isSeenArticle`, `addToSeenTable`) -/

/-- Query `SELECT url, date, summary FROM seen WHERE url=?` through `QueryRow`:
the first row whose key matches, `none` for `sql.ErrNoRows`. -/
def queryRow (db : DB) (key : Str) : Option SeenRow :=
  db.rows.find? (fun r => r.url == key)

/-- Transcription of `isSeenArticle(db, item, postfix)`, the last parameter
being called `suffix` here: returns `(seen, today, summaryText)`. On
`sql.ErrNoRows` the scanned variables `url`, `date`, `summary` keep their zero
values. -/
def isSeenArticle (db : DB) (currentDate : Str) (item : Item) (suffix : Str) :
    Bool × Bool × Str :=
  if db.readFault then (false, false, [])
  else
    let scanned : Str × Str × Option Str :=
      match queryRow db (item.link ++ suffix) with
      | some r => (r.url, r.date, r.summary)
      | none => ([], [], none)
    let summaryText : Str :=
      match scanned.2.2 with
      | some t => t
      | none => []
    (scanned.1 != [] && scanned.2.1 != currentDate,
     scanned.1 != [] && scanned.2.1 == currentDate, summaryText)

/-- Transcription of `addToSeenTable(db, link, summary)`: a plain `INSERT` of a
row dated `currentDate`. Under a uniqueness constraint an insert on a present
key errors and `fatal` ends the process. -/
def addToSeenTable (db : DB) (currentDate : Str) (link summary : Str) : Option DB :=
  if db.uniqueUrl && db.rows.any (fun r => r.url == link) then none
  else some { db with rows := db.rows ++ [⟨link, currentDate, some summary⟩] }

/-! ## Summaries (`summarize`, `getSummaryFromLink`, `getSummary`) -/

/-- Transcription of `summarize(text, cfg)`: the summary and the list of texts
sent to the chat-completion endpoint. A negative length limit makes
`text[:limit]` panic; an empty list of choices makes `resp.Choices[0]`
panic. -/
def summarize (env : Env) (text : Str) (cfg : Config) : Option (Str × List Str) :=
  if cfg.SummaryArticleLengthLimit < 0 then none
  else
    let text : Str :=
      if (text.length : Int) > cfg.SummaryArticleLengthLimit then
        text.take cfg.SummaryArticleLengthLimit.toNat
      else text
    if text.length < 200 then some ([], [])
    else
      match env.chat text with
      | none => some ([], [text])
      | some [] => none
      | some (c :: _) => some (c, [text])

/-- Transcription of `getSummaryFromLink(cfg, url)`: on an extraction error the
article is the zero value, whose text is empty. -/
def getSummaryFromLink (env : Env) (cfg : Config) (url : Str) : Option (Str × List Str) :=
  let text : Str := match env.FromURL url with
    | some t => t
    | none => []
  summarize env text cfg

/-- Transcription of `getSummary(cfg, rss, item, link)`. -/
def getSummary (env : Env) (cfg : Config) (rss : RSS) (item : Item) (link : Str) :
    Option (Str × List Str) :=
  if !rss.summarize then some ([], [])
  else
    match getSummaryFromLink env cfg link with
    | none => none
    | some (summary, calls) =>
      if summary = [] then some (item.description, calls) else some (summary, calls)

/-! ## Item rendering -/

/-- Transcription of `getReadingTime(link)`: whole minutes at 200 words per
minute. -/
def getReadingTime (env : Env) (link : Str) : Str :=
  match env.FromURL link with
  | none => []
  | some text =>
    let minutes : Nat := (env.Fields text).length / 200
    if minutes = 0 then [] else Itoa minutes ++ " min".toList

/-- Transcription of `getInstapaperLink(link)`. -/
def getInstapaperLink (link : Str) : Str :=
  "[<img height=\"16\" src=\"https://staticinstapaper.s3.dualstack.us-west-2.amazonaws.com/img/favicon.png\">](https://www.instapaper.com/hello2?url=".toList
    ++ link ++ ")".toList

/-- Transcription of `getCommentsInfo(item)`: fixed-offset slicing of the
description; an out-of-range slice panics. -/
def getCommentsInfo (item : Item) : Option (Str × Int) :=
  let first_index : Int := Index item.description "Comments URL".toList + 23
  match slice item.description first_index (first_index + 45) with
  | none => none
  | some comments_url =>
    let first_comments_index : Int := Index item.description "Comments:".toList + 10
    match sliceFrom item.description first_comments_index with
    | none => none
    | some rest =>
      let comments_number : Str := Replace rest "</p>\n".toList []
      some (comments_url, Atoi comments_number)

/-- Bytes of the literal `"💬 "` (U+1F4AC in UTF-8, then a space). -/
def markerNormal : Str :=
  [Char.ofNat 0xF0, Char.ofNat 0x9F, Char.ofNat 0x92, Char.ofNat 0xAC, ' ']

/-- Bytes of the literal `"🔥 "` (U+1F525 in UTF-8, then a space). -/
def markerHot : Str :=
  [Char.ofNat 0xF0, Char.ofNat 0x9F, Char.ofNat 0x94, Char.ofNat 0xA5, ' ']

/-- Lines 160-168 of `processFeedItem`: the comments link of a Hacker News
feed. -/
def commentsPart (w : Writer) (feed : Feed) (item : Item) : Option Str :=
  if Contains feed.link "news.ycombinator.com".toList then
    match getCommentsInfo item with
    | none => none
    | some (commentsLink, commentsCount) =>
      if commentsCount < 100 then some (w.writeLink markerNormal commentsLink false [])
      else some (w.writeLink markerHot commentsLink false [])
  else some []

/-- Lines 170-195 of `processFeedItem`: what is appended to the fragment after
the comments link, for the summary in force. -/
def itemBody (env : Env) (w : Writer) (rss : RSS) (item : Item) (cfg : Config)
    (summary : Str) : Str :=
  let s1 : Str := if cfg.Instapaper && !cfg.TerminalMode then getInstapaperLink item.link else []
  let title : Str := if item.title = [] then env.stripHtmlRegex item.description else item.title
  let timeInMin : Str := if cfg.ReadingTime then getReadingTime env item.link else []
  let s2 : Str := w.writeLink title item.link true timeInMin
  let s3 : Str := if rss.summarize then w.writeSummary summary true else []
  let s4 : Str :=
    if cfg.ShowImages && !cfg.TerminalMode then
      (if env.imageTag item.content ≠ [] then env.imageTag item.content ++ "\n".toList else [])
    else []
  s1 ++ s2 ++ s3 ++ s4

/-- Lines 155-157 of `processFeedItem`: a cached summary is reused, an empty one
is computed. -/
def summaryStep (env : Env) (cfg : Config) (rss : RSS) (item : Item) (cached : Str) :
    Option (Str × List Str) :=
  if cached = [] then getSummary env cfg rss item item.link else some (cached, [])

/-- Body of `processFeedItem` after the ledger lookup of line 150, for the
lookup result `(seen, seen_today, summary)`. -/
def processAfterLookup (env : Env) (currentDate : Str) (db : DB) (w : Writer) (feed : Feed)
    (rss : RSS) (item : Item) (cfg : Config) (look : Bool × Bool × Str) : Option Outcome :=
  if look.1 then some ⟨[], db, []⟩
  else
    match summaryStep env cfg rss item look.2.2 with
    | none => none
    | some (summary, calls) =>
      match commentsPart w feed item with
      | none => none
      | some marker =>
        let itemStr : Str := marker ++ itemBody env w rss item cfg summary
        if !look.2.1 then
          match addToSeenTable db currentDate item.link summary with
          | none => none
          | some db2 => some ⟨itemStr, db2, calls⟩
        else some ⟨itemStr, db, calls⟩

/-- Transcription of `processFeedItem(db, w, feed, rss, item, cfg)`. -/
def processFeedItem (env : Env) (currentDate : Str) (db : DB) (w : Writer) (feed : Feed)
    (rss : RSS) (item : Item) (cfg : Config) : Option Outcome :=
  processAfterLookup env currentDate db w feed rss item cfg (isSeenArticle db currentDate item [])

/-! ## Source fetch, fan-out and per-source assembly (`parseFeed`, `main`) -/

/-- Transcription of `parseFeed(fp, url, limit)`: the inner `none` is the `nil`
feed of a failed parse; `feed.Items[:limit]` panics on a negative limit. -/
def parseFeed (env : Env) (url : Str) (limit : Int) : Option (Option Feed) :=
  match env.ParseURL url with
  | none => some none
  | some feed =>
    if (feed.items.length : Int) > limit then
      (if limit < 0 then none
       else some (some { feed with items := feed.items.take limit.toNat }))
    else some (some feed)

/-- Lines 40-52 of `main`: `results` starts as `n` empty strings and every task
performs one slot write `results[idx] = itemStr`; the list gives the writes in
the order in which the tasks complete. -/
def joinResults (n : Nat) (completion : List (Nat × Str)) : List Str :=
  completion.foldl (fun res p => res.set p.1 p.2) (List.replicate n [])

/-- Lines 54-57 of `main`: concatenation of the result slots in index order. -/
def feedStr (results : List Str) : Str :=
  results.foldl (fun acc itemStr => acc ++ itemStr) []

/-- Transcription of `writeFeed(w, feed, items)`: the body handed to `w.write`,
`"\n### %s  %s\n%s"` filled with favicon, title and items; `none` when
`w.writeFavicon` panics. -/
def writeFeed (w : Writer) (feed : Feed) (items : Str) : Option Str :=
  match w.writeFavicon feed with
  | none => none
  | some favicon =>
    some ("\n### ".toList ++ favicon ++ "  ".toList ++ feed.title ++ "\n".toList ++ items)

/-- Lines 54-61 of `main`: the bodies written to the sink for one source,
`none` when the run is aborted. -/
def emitFeed (w : Writer) (feed : Feed) (results : List Str) : Option (List Str) :=
  if feedStr results ≠ [] then
    match writeFeed w feed (feedStr results) with
    | none => none
    | some body => some [body]
  else some []

/-- Lines 33-40 of `analyst.go` (`generateAnalysis`): lookup and record of one
item of the analysis pass, on the ledger. -/
def analysisItem (currentDate : Str) (db : DB) (item : Item) : Option DB :=
  if (isSeenArticle db currentDate item "#analyst".toList).1 then some db
  else if !(isSeenArticle db currentDate item "#analyst".toList).2.1 then
    addToSeenTable db currentDate (item.link ++ "#analyst".toList)
      (isSeenArticle db currentDate item "#analyst".toList).2.2
  else some db

/-- One ledger-touching step of a run: an enrichment task of the digest pass or
an item of the analysis pass. -/
inductive Step where
  | feedItem (env : Env) (w : Writer) (feed : Feed) (rss : RSS) (item : Item) (cfg : Config)
  | analysis (item : Item)

/-- Ledger after one step, `none` when the run is aborted. -/
def stepDB (currentDate : Str) (db : DB) : Step → Option DB
  | .feedItem env w feed rss item cfg =>
    (processFeedItem env currentDate db w feed rss item cfg).map Outcome.db
  | .analysis item => analysisItem currentDate db item

/-- Ledger after a sequence of steps executed one after the other. -/
def runSteps (currentDate : Str) : DB → List Step → Option DB
  | db, [] => some db
  | db, st :: rest =>
    match stepDB currentDate db st with
    | none => none
    | some db2 => runSteps currentDate db2 rest

/-- The interleaving of two enrichment tasks in which both perform the ledger
lookup of line 150 on the initial ledger before either continues; the first
task then runs to its end, followed by the second. -/
def raceTwoTasks (env : Env) (currentDate : Str) (db : DB) (w : Writer) (feed : Feed) (rss : RSS)
    (itemA itemB : Item) (cfg : Config) : Option (Outcome × Outcome) :=
  match processAfterLookup env currentDate db w feed rss itemA cfg
      (isSeenArticle db currentDate itemA []) with
  | none => none
  | some outA =>
    match processAfterLookup env currentDate outA.db w feed rss itemB cfg
        (isSeenArticle db currentDate itemB []) with
    | none => none
    | some outB => some (outA, outB)

/-- Ledger invariant: at most one record per key. -/
def UniqueKeys (db : DB) : Prop :=
  (db.rows.map SeenRow.url).Nodup

instance (db : DB) : Decidable (UniqueKeys db) :=
  inferInstanceAs (Decidable ((db.rows.map SeenRow.url).Nodup))

/-- Transcription of `MarkdownWriter.writeFavicon(s)`. `urlHost` is `url.Parse`
followed by `Hostname`, `none` when the link does not parse: the source prints
the parse error and goes on to call `Hostname` on the nil URL, which panics. -/
def MarkdownWriter.writeFavicon (urlHost : Str → Option Str) (s : Feed) : Option Str :=
  if s.feedLink = [] then
    some [Char.ofNat 0xF0, Char.ofNat 0x9F, Char.ofNat 0x8D, Char.ofNat 0xB5]
  else
    match urlHost s.feedLink with
    | none => none
    | some host =>
      some ("<img src=\"".toList
        ++ (if Contains s.title "Hacker News".toList then
              "https://news.ycombinator.com/favicon.ico".toList
            else "https://www.google.com/s2/favicons?sz=32&domain=".toList ++ host)
        ++ "\" width=\"32\" height=\"32\" />".toList)

/-- A stand-in for `url.Parse` followed by `Hostname` on the feed links of the
examples: a link that begins with a colon has no scheme and is rejected
("missing protocol scheme"); for the others the host is what stands between
`//` and the next `/`. -/
def sampleUrlHost : Str → Option Str
  | ':' :: _ => none
  | link =>
    match indexAux "//".toList link with
    | some i => some ((link.drop (i + 2)).takeWhile (fun c => c != '/'))
    | none => some []

/-- Modelled from the spec: `writeLink` and `writeSummary` of the
persisted-document variant of the Writer Sink (section 4.6), which are not among
the sources. A titled link is a Markdown link followed by the optional
reading-time annotation; a summary block is the summary text, absent for an
empty summary. The third method is not modelled: it is the transcription
`MarkdownWriter.writeFavicon` of the source. -/
def markdownWriter (urlHost : Str → Option Str) : Writer where
  writeLink := fun title url newline readingTime =>
    "[".toList ++ title ++ "](".toList ++ url ++ ")".toList
      ++ (if readingTime ≠ [] then " (".toList ++ readingTime ++ ")".toList else [])
      ++ (if newline then "  \n".toList else [])
  writeSummary := fun content newline =>
    if content = [] then [] else content ++ (if newline then "  \n\n".toList else [])
  writeFavicon := MarkdownWriter.writeFavicon urlHost

/-- An environment without network: every extraction and completion fails. -/
def offlineEnv : Env where
  FromURL := fun _ => none
  chat := fun _ => none
  Fields := fun _ => []
  stripHtmlRegex := fun s => s
  imageTag := fun _ => []
  ParseURL := fun _ => none

/-- An environment whose article extraction yields a text of 150 bytes and whose
completion endpoint would answer. -/
def shortArticleEnv : Env :=
  { offlineEnv with
    FromURL := fun _ => some (List.replicate 150 'a')
    chat := fun _ => some ["S".toList] }

/-- An environment whose feed parser yields a feed of twelve items. -/
def twelveItemEnv : Env :=
  { offlineEnv with
    ParseURL := fun _ =>
      some ⟨"F".toList, [], [], (List.range 12).map (fun i => ⟨Itoa i, [], [], []⟩)⟩ }

/-- The description that hnrss produces for an article URL, a 45-byte comments
link and a comment count: four paragraphs, the last being the count. -/
def hnDescription (article link : Str) (n : Nat) : Str :=
  "<p>Article URL: <a href=\"".toList ++ article ++ "\">".toList ++ article ++ "</a></p>\n<p>".toList
    ++ "Comments URL: <a href=\"".toList ++ link
    ++ ("\">".toList ++ link ++ "</a></p>\n<p>Points: 500</p>\n<p>".toList)
    ++ "# Comments: ".toList ++ Itoa n ++ "</p>\n".toList

/-- A feed whose link is the Hacker News site. -/
def hnFeed : Feed :=
  ⟨"Hacker News: Best".toList, "https://news.ycombinator.com/best".toList,
   "https://hnrss.org/best".toList, []⟩

/-! ## Lead image (`ExtractImageTagFromHTML`) -/

/-- A finite positive `float64`, held exactly as the fraction `num / den`. -/
structure F64 where
  num : Nat
  den : Nat
deriving DecidableEq

/-- Worker of `bitLen`. -/
def bitLenAux : Nat → Nat → Nat
  | 0, _ => 0
  | fuel + 1, n => if n = 0 then 0 else bitLenAux fuel (n / 2) + 1

/-- Number of binary digits of a natural number. -/
def bitLen (n : Nat) : Nat :=
  bitLenAux n n

/-- Binary exponent of the positive fraction `n / d`: the `e` with
`2 ^ e ≤ n / d < 2 ^ (e + 1)`. -/
def binExp (n d : Nat) : Int :=
  if 2 ^ ((bitLen n : Int) - (bitLen d : Int)).toNat * d
      ≤ n * 2 ^ ((bitLen d : Int) - (bitLen n : Int)).toNat then
    (bitLen n : Int) - (bitLen d : Int)
  else (bitLen n : Int) - (bitLen d : Int) - 1

/-- Integer nearest to `N / D`, a tie going to the even one. -/
def roundHalfEven (N D : Nat) : Nat :=
  if 2 * (N % D) < D then N / D
  else if D < 2 * (N % D) then N / D + 1
  else if (N / D) % 2 = 0 then N / D else N / D + 1

/-- IEEE 754 binary64 rounding (round to nearest, ties to even) of the positive
fraction `n / d`: the fraction is scaled by a power of two into
`[2 ^ 52, 2 ^ 53)`, rounded to an integer significand of 53 bits and scaled
back. Exponent range limits are not modelled. -/
def roundNearestEven (n d : Nat) : F64 :=
  ⟨roundHalfEven (n * 2 ^ (52 - binExp n d).toNat) (d * 2 ^ (binExp n d - 52).toNat)
      * 2 ^ (binExp n d - 52).toNat,
   2 ^ (52 - binExp n d).toNat⟩

/-- Go conversion `float64(i)` of a positive `int`. -/
def F64.ofInt (i : Int) : F64 :=
  roundNearestEven i.toNat 1

/-- Go `float64` division `a / b` of positive values: the exact quotient,
rounded. -/
def F64.div (a b : F64) : F64 :=
  roundNearestEven (a.num * b.den) (a.den * b.num)

/-- Go conversion `int(x)` of a positive `float64`: the fraction is dropped. -/
def F64.toInt (x : F64) : Int :=
  ((x.num / x.den : Nat) : Int)

/-- The rational number held by a `float64`. -/
def F64.toRat (x : F64) : ℚ :=
  (x.num : ℚ) / (x.den : ℚ)

/-- Lines 112-118 of `ExtractImageTagFromHTML`: the new width and height for
positive `widthInt` and `heightInt`. -/
def resizeDims (widthInt heightInt : Int) : Int × Int :=
  if widthInt > 400 then
    (400, F64.toInt (F64.div (F64.ofInt 400)
      (F64.div (F64.ofInt widthInt) (F64.ofInt heightInt))))
  else (widthInt, heightInt)

/-- Attributes of an `img` element, in document order. -/
abbrev ImgTag := List (Str × Str)

/-- Method `AttrOr(attrName, defaultValue)` of a goquery selection. -/
def AttrOr (tag : ImgTag) (attrName defaultValue : Str) : Str :=
  match tag.find? (fun a => a.1 == attrName) with
  | some a => a.2
  | none => defaultValue

/-- Method `SetAttr(attrName, val)` of a goquery selection: the value of a
present attribute is replaced, an absent attribute is appended. -/
def SetAttr (tag : ImgTag) (attrName val : Str) : ImgTag :=
  if tag.any (fun a => a.1 == attrName) then
    tag.map (fun a => if a.1 == attrName then (attrName, val) else a)
  else tag ++ [(attrName, val)]

/-- Go `fmt.Sprintf("%d", i)`. -/
def fmtInt (i : Int) : Str :=
  if i < 0 then '-' :: Itoa i.natAbs else Itoa i.toNat

/-- The HTML library: `firstImg` is `goquery.NewDocumentFromReader` followed by
`Find("img").First()` (`none` when parsing fails or no `img` exists),
`OuterHtml` is `goquery.OuterHtml` (`none` on error). -/
structure Goquery where
  firstImg : Str → Option ImgTag
  OuterHtml : ImgTag → Option Str

/-- Lines 103-123 of `ExtractImageTagFromHTML`: the first image tag after the
size attributes have been rewritten. -/
def resizeImg (firstImgTag : ImgTag) : ImgTag :=
  if AttrOr firstImgTag "width".toList [] ≠ [] ∧ AttrOr firstImgTag "height".toList [] ≠ [] then
    (if Atoi (AttrOr firstImgTag "width".toList []) > 0
        ∧ Atoi (AttrOr firstImgTag "height".toList []) > 0 then
      SetAttr
        (SetAttr firstImgTag "width".toList
          (fmtInt (resizeDims (Atoi (AttrOr firstImgTag "width".toList []))
            (Atoi (AttrOr firstImgTag "height".toList []))).1))
        "height".toList
        (fmtInt (resizeDims (Atoi (AttrOr firstImgTag "width".toList []))
          (Atoi (AttrOr firstImgTag "height".toList []))).2)
    else firstImgTag)
  else firstImgTag

/-- Transcription of `ExtractImageTagFromHTML(htmlText)`. The field
`Env.imageTag` stands for this function on a fixed HTML library. -/
def ExtractImageTagFromHTML (gq : Goquery) (htmlText : Str) : Str :=
  match gq.firstImg htmlText with
  | none => []
  | some firstImgTag =>
    match gq.OuterHtml (resizeImg firstImgTag) with
    | none => []
    | some html => html

/-- The markup of an `img` element with the given attributes, as
`goquery.OuterHtml` writes a void element. -/
def renderImg (tag : ImgTag) : Str :=
  "<img".toList
    ++ (tag.map (fun a => " ".toList ++ a.1 ++ "=\"".toList ++ a.2 ++ "\"".toList)).flatten
    ++ "/>".toList

/-- An HTML library for a document whose first image tag is `tag`. -/
def fixedGoquery (tag : ImgTag) : Goquery where
  firstImg := fun _ => some tag
  OuterHtml := fun t => some (renderImg t)

/-! ## Ledger lookup -/

theorem queryRow_some {db : DB} {key : Str} {r : SeenRow} (h : queryRow db key = some r) :
    r ∈ db.rows ∧ r.url = key := by
  unfold queryRow at h
  refine ⟨List.mem_of_find?_eq_some h, ?_⟩
  have := List.find?_some h
  simpa using this

theorem queryRow_none {db : DB} {key : Str} (h : queryRow db key = none) :
    ∀ r ∈ db.rows, r.url ≠ key := by
  unfold queryRow at h
  intro r hr
  have := (List.find?_eq_none.mp h) r hr
  simpa using this

theorem row_unique {db : DB} (hu : UniqueKeys db) {r s : SeenRow} (hr : r ∈ db.rows)
    (hs : s ∈ db.rows) (h : r.url = s.url) : r = s :=
  List.inj_on_of_nodup_map hu hr hs h

/-- A lookup that reports `today` does not report `seen`. -/
theorem today_excludes_seen (db : DB) (currentDate : Str) (item : Item) (suffix : Str)
    (h : (isSeenArticle db currentDate item suffix).2.1 = true) :
    (isSeenArticle db currentDate item suffix).1 = false := by
  unfold isSeenArticle at h ⊢
  split
  · rfl
  · rename_i hf
    simp only [hf] at h
    simp only [Bool.and_eq_true, beq_iff_eq, bne_iff_ne, ne_eq, Bool.false_eq_true, if_false] at h ⊢
    simp [h.2]

/-! ## C1: suppression guard of `processFeedItem` -/

/-- C1, as the code has it: an item whose ledger lookup (empty suffix) reports
`seen` (a record dated on a day other than today) gets the empty fragment, the
ledger is left as it was and no summarization request is sent. -/
theorem C1_seen_before_item_is_suppressed (env : Env) (currentDate : Str) (db : DB) (w : Writer)
    (feed : Feed) (rss : RSS) (item : Item) (cfg : Config)
    (hseen : (isSeenArticle db currentDate item []).1 = true) :
    processFeedItem env currentDate db w feed rss item cfg = some ⟨[], db, []⟩ := by
  simp [processFeedItem, processAfterLookup, hseen]

/-- C1, instance: a record of 2024-05-01 looked up on 2024-05-02. -/
theorem C1_seen_before_item_is_suppressed_witness :
    (isSeenArticle ⟨[⟨"https://a.io/1".toList, "2024-05-01".toList, none⟩], false, false⟩
        "2024-05-02".toList ⟨"T".toList, "https://a.io/1".toList, [], []⟩ []).1 = true
    ∧ processFeedItem offlineEnv "2024-05-02".toList
        ⟨[⟨"https://a.io/1".toList, "2024-05-01".toList, none⟩], false, false⟩
        (markdownWriter sampleUrlHost) ⟨[], [], [], []⟩ ⟨[], 20, false⟩
        ⟨"T".toList, "https://a.io/1".toList, [], []⟩ ⟨5000, true, false, false, false⟩
      = some ⟨[], ⟨[⟨"https://a.io/1".toList, "2024-05-01".toList, none⟩], false, false⟩, []⟩ :=
  ⟨by decide, C1_seen_before_item_is_suppressed _ _ _ _ _ _ _ _ (by decide)⟩

/-- C1 as stated fails: the item `a` has a record dated today, the lookup
reports `today = true`, and `processFeedItem` returns the rendered link, not
the empty fragment. -/
theorem C1_seen_today_item_is_rendered :
    (isSeenArticle ⟨[⟨"a".toList, "2024-05-02".toList, some "s".toList⟩], false, false⟩
        "2024-05-02".toList ⟨"T".toList, "a".toList, "d".toList, []⟩ []).2.1 = true
    ∧ (processFeedItem offlineEnv "2024-05-02".toList
        ⟨[⟨"a".toList, "2024-05-02".toList, some "s".toList⟩], false, false⟩
        (markdownWriter sampleUrlHost) ⟨"F".toList, "http://x".toList, [], []⟩ ⟨[], 10, false⟩
        ⟨"T".toList, "a".toList, "d".toList, []⟩ ⟨5000, false, false, false, false⟩).map
          Outcome.fragment = some "[T](a)  \n".toList := by
  decide

/-! ## C2: items that pass the guard -/

/-- C2, as the code has it: an item whose ledger lookup reports `today` (its
record is dated today) passes the guard. When the summary step and the comments
link do not abort, `processFeedItem` returns the comments link followed by the
item body, leaves the ledger unchanged, and the fragment is non-empty as soon
as the writer renders a non-empty title link. -/
theorem C2_seen_today_item_is_rendered (env : Env) (currentDate : Str) (db : DB) (w : Writer)
    (feed : Feed) (rss : RSS) (item : Item) (cfg : Config) (marker summary : Str)
    (calls : List Str)
    (htoday : (isSeenArticle db currentDate item []).2.1 = true)
    (hsum : summaryStep env cfg rss item (isSeenArticle db currentDate item []).2.2
      = some (summary, calls))
    (hmark : commentsPart w feed item = some marker) :
    processFeedItem env currentDate db w feed rss item cfg
        = some ⟨marker ++ itemBody env w rss item cfg summary, db, calls⟩
    ∧ (w.writeLink (if item.title = [] then env.stripHtmlRegex item.description else item.title)
          item.link true (if cfg.ReadingTime then getReadingTime env item.link else []) ≠ []
        → marker ++ itemBody env w rss item cfg summary ≠ []) := by
  have hseen := today_excludes_seen db currentDate item [] htoday
  constructor
  · simp [processFeedItem, processAfterLookup, hseen, htoday, hsum, hmark]
  · intro hne h
    simp only [itemBody, List.append_eq_nil] at h
    exact hne h.2.1.1.2

/-- C2, instance: a record of today with a cached summary, on a summarizing
source. -/
theorem C2_seen_today_item_is_rendered_witness :
    processFeedItem offlineEnv "2024-05-02".toList
        ⟨[⟨"b".toList, "2024-05-02".toList, some "cached".toList⟩], false, false⟩
        (markdownWriter sampleUrlHost) ⟨"F".toList, "http://x".toList, [], []⟩ ⟨[], 10, true⟩
        ⟨"T".toList, "b".toList, "d".toList, []⟩ ⟨5000, false, false, false, false⟩
      = some ⟨[] ++ itemBody offlineEnv (markdownWriter sampleUrlHost) ⟨[], 10, true⟩
                ⟨"T".toList, "b".toList, "d".toList, []⟩ ⟨5000, false, false, false, false⟩
                "cached".toList,
              ⟨[⟨"b".toList, "2024-05-02".toList, some "cached".toList⟩], false, false⟩, []⟩ :=
  (C2_seen_today_item_is_rendered offlineEnv "2024-05-02".toList
    ⟨[⟨"b".toList, "2024-05-02".toList, some "cached".toList⟩], false, false⟩
    (markdownWriter sampleUrlHost) ⟨"F".toList, "http://x".toList, [], []⟩ ⟨[], 10, true⟩
    ⟨"T".toList, "b".toList, "d".toList, []⟩ ⟨5000, false, false, false, false⟩
    [] "cached".toList [] (by decide) (by decide) (by decide)).1

/-- C2 as stated fails: the item `a` has a record of the previous day, the
lookup reports `seen = true` and `today = false`, and `processFeedItem` returns
the empty fragment. -/
theorem C2_prior_day_item_is_suppressed :
    (isSeenArticle ⟨[⟨"a".toList, "2024-05-01".toList, some "s".toList⟩], false, false⟩
        "2024-05-02".toList ⟨"T".toList, "a".toList, "d".toList, []⟩ []) = (true, false, "s".toList)
    ∧ (processFeedItem offlineEnv "2024-05-02".toList
        ⟨[⟨"a".toList, "2024-05-01".toList, some "s".toList⟩], false, false⟩
        (markdownWriter sampleUrlHost) ⟨"F".toList, "http://x".toList, [], []⟩ ⟨[], 10, false⟩
        ⟨"T".toList, "a".toList, "d".toList, []⟩ ⟨5000, false, false, false, false⟩).map
          Outcome.fragment = some [] := by
  decide

/-! ## C3: what `isSeenArticle` reports -/

/-- C3, as the code has it: on a ledger with at most one record per key and a
successful read, for a non-empty key, `seen` holds iff the key has a record
dated on a day other than today, `today` holds iff it has a record dated today,
and a key without record gives `(false, false, "")`. -/
theorem C3_lookup_characterisation (db : DB) (currentDate : Str) (item : Item) (suffix : Str)
    (huniq : UniqueKeys db) (hread : db.readFault = false) (hkey : item.link ++ suffix ≠ []) :
    ((isSeenArticle db currentDate item suffix).1 = true ↔
        ∃ r ∈ db.rows, r.url = item.link ++ suffix ∧ r.date ≠ currentDate)
    ∧ ((isSeenArticle db currentDate item suffix).2.1 = true ↔
        ∃ r ∈ db.rows, r.url = item.link ++ suffix ∧ r.date = currentDate)
    ∧ ((∀ r ∈ db.rows, r.url ≠ item.link ++ suffix) →
        isSeenArticle db currentDate item suffix = (false, false, [])) := by
  unfold isSeenArticle
  simp only [hread, Bool.false_eq_true, if_false]
  cases hq : queryRow db (item.link ++ suffix) with
  | none =>
    have hn := queryRow_none hq
    refine ⟨?_, ?_, ?_⟩
    · constructor
      · intro h; simp at h
      · rintro ⟨r, hr, hurl, _⟩; exact absurd hurl (hn r hr)
    · constructor
      · intro h; simp at h
      · rintro ⟨r, hr, hurl, _⟩; exact absurd hurl (hn r hr)
    · intro _; simp
  | some r =>
    obtain ⟨hr, hurl⟩ := queryRow_some hq
    have hne : r.url ≠ [] := by rw [hurl]; exact hkey
    refine ⟨?_, ?_, ?_⟩
    · constructor
      · intro h
        refine ⟨r, hr, hurl, ?_⟩
        simpa [hne] using h
      · rintro ⟨s, hs, hsurl, hsd⟩
        have : r = s := row_unique huniq hr hs (hurl.trans hsurl.symm)
        subst this
        simp [hne, hsd]
    · constructor
      · intro h
        refine ⟨r, hr, hurl, ?_⟩
        simpa [hne] using h
      · rintro ⟨s, hs, hsurl, hsd⟩
        have : r = s := row_unique huniq hr hs (hurl.trans hsurl.symm)
        subst this
        simp [hne, hsd]
    · intro h; exact absurd hurl (h r hr)

/-- C3, instance: a two-record ledger, key `k#analyst`, looked up on
2024-05-02. -/
theorem C3_lookup_characterisation_witness :
    UniqueKeys ⟨[⟨"k".toList, "2024-05-02".toList, none⟩,
                 ⟨"k#analyst".toList, "2024-05-01".toList, some []⟩], false, false⟩
    ∧ (isSeenArticle ⟨[⟨"k".toList, "2024-05-02".toList, none⟩,
                 ⟨"k#analyst".toList, "2024-05-01".toList, some []⟩], false, false⟩
        "2024-05-02".toList ⟨[], "k".toList, [], []⟩ "#analyst".toList).1 = true :=
  ⟨by decide,
   ((C3_lookup_characterisation
      ⟨[⟨"k".toList, "2024-05-02".toList, none⟩,
        ⟨"k#analyst".toList, "2024-05-01".toList, some []⟩], false, false⟩
      "2024-05-02".toList ⟨[], "k".toList, [], []⟩ "#analyst".toList
      (by decide) rfl (by decide)).1).mpr
     ⟨⟨"k#analyst".toList, "2024-05-01".toList, some []⟩, by decide, by decide, by decide⟩⟩

/-- C3 as stated fails twice. A record dated after today makes `seen` true
although no record of the key is strictly earlier than today; and a record
whose key is empty, dated today, is not reported as `today`. -/
theorem C3_later_date_and_empty_key :
    (UniqueKeys ⟨[⟨"a".toList, "2024-05-03".toList, none⟩], false, false⟩
      ∧ (isSeenArticle ⟨[⟨"a".toList, "2024-05-03".toList, none⟩], false, false⟩
          "2024-05-02".toList ⟨[], "a".toList, [], []⟩ []).1 = true
      ∧ ¬ ∃ r ∈ (⟨[⟨"a".toList, "2024-05-03".toList, none⟩], false, false⟩ : DB).rows,
          r.url = "a".toList ++ [] ∧ r.date < "2024-05-02".toList)
    ∧ (UniqueKeys ⟨[⟨[], "2024-05-02".toList, some []⟩], false, false⟩
      ∧ (isSeenArticle ⟨[⟨[], "2024-05-02".toList, some []⟩], false, false⟩
          "2024-05-02".toList ⟨[], [], [], []⟩ []).2.1 = false
      ∧ ∃ r ∈ (⟨[⟨[], "2024-05-02".toList, some []⟩], false, false⟩ : DB).rows,
          r.url = ([] : Str) ++ [] ∧ r.date = "2024-05-02".toList) := by
  decide

/-! ## C4 and C6: records written by the pipeline -/

theorem addToSeenTable_fresh (db : DB) (currentDate link summary : Str)
    (hfresh : ∀ r ∈ db.rows, r.url ≠ link) :
    addToSeenTable db currentDate link summary
      = some { db with rows := db.rows ++ [⟨link, currentDate, some summary⟩] } := by
  unfold addToSeenTable
  have : db.rows.any (fun r => r.url == link) = false := by
    rw [Bool.eq_false_iff]
    intro h
    obtain ⟨r, hr, hrl⟩ := List.any_eq_true.mp h
    exact hfresh r hr (by simpa using hrl)
  simp [this]

theorem uniqueKeys_append (db : DB) (currentDate link summary : Str) (hu : UniqueKeys db)
    (hfresh : ∀ r ∈ db.rows, r.url ≠ link) :
    UniqueKeys { db with rows := db.rows ++ [⟨link, currentDate, some summary⟩] } := by
  unfold UniqueKeys at hu ⊢
  simp only [List.map_append, List.map_cons, List.map_nil]
  rw [List.nodup_append]
  refine ⟨hu, List.nodup_singleton _, ?_⟩
  intro a ha hb
  rw [List.mem_singleton] at hb
  obtain ⟨r, hr, rfl⟩ := List.mem_map.mp ha
  exact hfresh r hr hb

/-- A successful lookup of a non-empty key that reports neither `seen` nor
`today` means that the key has no record. -/
theorem fresh_of_unseen (db : DB) (currentDate : Str) (item : Item) (suffix : Str)
    (hread : db.readFault = false) (hkey : item.link ++ suffix ≠ [])
    (hseen : (isSeenArticle db currentDate item suffix).1 = false)
    (htoday : (isSeenArticle db currentDate item suffix).2.1 = false) :
    ∀ r ∈ db.rows, r.url ≠ item.link ++ suffix := by
  unfold isSeenArticle at hseen htoday
  simp only [hread, Bool.false_eq_true, if_false] at hseen htoday
  cases hq : queryRow db (item.link ++ suffix) with
  | none => exact queryRow_none hq
  | some r =>
    obtain ⟨_, hurl⟩ := queryRow_some hq
    have hne : r.url ≠ [] := by rw [hurl]; exact hkey
    simp only [hq] at hseen htoday
    by_cases hd : r.date = currentDate
    · simp [hne, hd] at htoday
    · simp [hne, hd] at hseen

theorem addToSeenTable_inv (db db2 : DB) (currentDate link summary : Str) (hu : UniqueKeys db)
    (hfresh : ∀ r ∈ db.rows, r.url ≠ link)
    (h : addToSeenTable db currentDate link summary = some db2) :
    UniqueKeys db2 ∧ db2.readFault = db.readFault := by
  rw [addToSeenTable_fresh db currentDate link summary hfresh] at h
  cases h
  exact ⟨uniqueKeys_append db currentDate link summary hu hfresh, rfl⟩

theorem processFeedItem_inv (env : Env) (currentDate : Str) (db : DB) (w : Writer) (feed : Feed)
    (rss : RSS) (item : Item) (cfg : Config) (out : Outcome) (hu : UniqueKeys db)
    (hread : db.readFault = false) (hlink : item.link ≠ [])
    (h : processFeedItem env currentDate db w feed rss item cfg = some out) :
    UniqueKeys out.db ∧ out.db.readFault = false := by
  unfold processFeedItem processAfterLookup at h
  by_cases hseen : (isSeenArticle db currentDate item []).1 = true
  · simp only [hseen, if_true] at h
    cases h
    exact ⟨hu, hread⟩
  · simp only [hseen, Bool.false_eq_true, if_false] at h
    cases hs : summaryStep env cfg rss item (isSeenArticle db currentDate item []).2.2 with
    | none => simp [hs] at h
    | some p =>
      obtain ⟨summary, calls⟩ := p
      cases hm : commentsPart w feed item with
      | none => simp [hs, hm] at h
      | some marker =>
        simp only [hs, hm] at h
        by_cases htoday : (isSeenArticle db currentDate item []).2.1 = true
        · simp only [htoday, Bool.not_true, Bool.false_eq_true, if_false] at h
          cases h
          exact ⟨hu, hread⟩
        · simp only [htoday, Bool.not_false, if_true] at h
          cases ha : addToSeenTable db currentDate item.link summary with
          | none => simp [ha] at h
          | some db2 =>
            simp only [ha] at h
            cases h
            have hfresh := fresh_of_unseen db currentDate item [] hread (by simpa using hlink)
              (by simpa using hseen) (by simpa using htoday)
            have := addToSeenTable_inv db db2 currentDate item.link summary hu
              (by simpa using hfresh) ha
            exact ⟨this.1, this.2.trans hread⟩

theorem analysisItem_inv (currentDate : Str) (db db2 : DB) (item : Item) (hu : UniqueKeys db)
    (hread : db.readFault = false) (h : analysisItem currentDate db item = some db2) :
    UniqueKeys db2 ∧ db2.readFault = false := by
  unfold analysisItem at h
  by_cases hseen : (isSeenArticle db currentDate item "#analyst".toList).1 = true
  · simp only [hseen, if_true] at h
    cases h
    exact ⟨hu, hread⟩
  · simp only [hseen, Bool.false_eq_true, if_false] at h
    by_cases htoday : (isSeenArticle db currentDate item "#analyst".toList).2.1 = true
    · simp only [htoday, Bool.not_true, Bool.false_eq_true, if_false] at h
      cases h
      exact ⟨hu, hread⟩
    · simp only [htoday, Bool.not_false, if_true] at h
      have hkey : item.link ++ "#analyst".toList ≠ [] := by simp
      have hfresh := fresh_of_unseen db currentDate item "#analyst".toList hread hkey
        (by simpa using hseen) (by simpa using htoday)
      have := addToSeenTable_inv db db2 currentDate _ _ hu hfresh h
      exact ⟨this.1, this.2.trans hread⟩

/-- Key uniqueness is kept by every sequence of steps whose digest-pass items
have a non-empty link. -/
theorem uniqueKeys_preserved (currentDate : Str) (steps : List Step) (db db2 : DB)
    (hu : UniqueKeys db) (hread : db.readFault = false)
    (hlinks : ∀ env w feed rss item cfg, Step.feedItem env w feed rss item cfg ∈ steps →
      item.link ≠ [])
    (h : runSteps currentDate db steps = some db2) : UniqueKeys db2 := by
  induction steps generalizing db with
  | nil =>
    simp only [runSteps] at h
    cases h
    exact hu
  | cons st rest ih =>
    simp only [runSteps] at h
    cases hst : stepDB currentDate db st with
    | none => simp [hst] at h
    | some db1 =>
      simp only [hst] at h
      have hinv : UniqueKeys db1 ∧ db1.readFault = false := by
        cases st with
        | feedItem env w feed rss item cfg =>
          simp only [stepDB] at hst
          cases hp : processFeedItem env currentDate db w feed rss item cfg with
          | none => simp [hp] at hst
          | some out =>
            simp only [hp, Option.map_some'] at hst
            cases hst
            exact processFeedItem_inv env currentDate db w feed rss item cfg out hu hread
              (hlinks env w feed rss item cfg (List.mem_cons_self _ _)) hp
        | analysis item =>
          simp only [stepDB] at hst
          exact analysisItem_inv currentDate db db1 item hu hread hst
      exact ih db1 hinv.1 hinv.2
        (fun env w feed rss item cfg hm =>
          hlinks env w feed rss item cfg (List.mem_cons_of_mem _ hm)) h

/-- C4, evaluated at the failing input. Two digest-pass items with an empty link
are processed one after the other on an empty ledger. Without a uniqueness
constraint on `url` the ledger ends with two records for the key `""`, so the
invariant is lost; with the constraint the second insert fails and `fatal` ends
the run. -/
theorem C4_empty_link_duplicates_record :
    UniqueKeys ⟨[], false, false⟩
    ∧ (runSteps "2024-05-02".toList ⟨[], false, false⟩
        [Step.feedItem offlineEnv (markdownWriter sampleUrlHost) ⟨"F".toList, "http://x".toList, [], []⟩
            ⟨[], 10, false⟩ ⟨"first".toList, [], [], []⟩ ⟨5000, false, false, false, false⟩,
         Step.feedItem offlineEnv (markdownWriter sampleUrlHost) ⟨"F".toList, "http://x".toList, [], []⟩
            ⟨[], 10, false⟩ ⟨"second".toList, [], [], []⟩ ⟨5000, false, false, false, false⟩])
      = some ⟨[⟨[], "2024-05-02".toList, some []⟩, ⟨[], "2024-05-02".toList, some []⟩],
              false, false⟩
    ∧ ¬ UniqueKeys ⟨[⟨[], "2024-05-02".toList, some []⟩, ⟨[], "2024-05-02".toList, some []⟩],
              false, false⟩
    ∧ (runSteps "2024-05-02".toList ⟨[], true, false⟩
        [Step.feedItem offlineEnv (markdownWriter sampleUrlHost) ⟨"F".toList, "http://x".toList, [], []⟩
            ⟨[], 10, false⟩ ⟨"first".toList, [], [], []⟩ ⟨5000, false, false, false, false⟩,
         Step.feedItem offlineEnv (markdownWriter sampleUrlHost) ⟨"F".toList, "http://x".toList, [], []⟩
            ⟨[], 10, false⟩ ⟨"second".toList, [], [], []⟩ ⟨5000, false, false, false, false⟩])
      = none := by
  decide

/-- C6, evaluated at the failing input. Two tasks for the same new key both look
the key up on the empty ledger (the lookup reports neither flag) before either
records. Without a uniqueness constraint on `url` the ledger ends with two
records for the key; with the constraint the second `addToSeenTable` fails and
`fatal` ends the run. -/
theorem C6_race_duplicates_or_aborts :
    (isSeenArticle ⟨[], false, false⟩ "2024-05-02".toList
        ⟨"T".toList, "https://a.io/1".toList, [], []⟩ []) = (false, false, [])
    ∧ (raceTwoTasks offlineEnv "2024-05-02".toList ⟨[], false, false⟩ (markdownWriter sampleUrlHost)
        ⟨"F".toList, "http://x".toList, [], []⟩ ⟨[], 10, false⟩
        ⟨"T".toList, "https://a.io/1".toList, [], []⟩ ⟨"T".toList, "https://a.io/1".toList, [], []⟩
        ⟨5000, false, false, false, false⟩).map (fun p => p.2.db.rows.map SeenRow.url)
      = some ["https://a.io/1".toList, "https://a.io/1".toList]
    ∧ raceTwoTasks offlineEnv "2024-05-02".toList ⟨[], true, false⟩ (markdownWriter sampleUrlHost)
        ⟨"F".toList, "http://x".toList, [], []⟩ ⟨[], 10, false⟩
        ⟨"T".toList, "https://a.io/1".toList, [], []⟩ ⟨"T".toList, "https://a.io/1".toList, [], []⟩
        ⟨5000, false, false, false, false⟩
      = none := by
  decide

/-! ## C5 and C7: fan-out join and per-source assembly -/

theorem feedStr_foldl (acc : Str) (results : List Str) :
    results.foldl (fun acc itemStr => acc ++ itemStr) acc = acc ++ results.flatten := by
  induction results generalizing acc with
  | nil => simp
  | cons r rs ih => simp [ih, List.append_assoc]

theorem feedStr_eq_flatten (results : List Str) : feedStr results = results.flatten := by
  simp [feedStr, feedStr_foldl]

theorem slotWrites_length (f : Nat → Str) (order : List Nat) (l : List Str) :
    ((order.map (fun idx => (idx, f idx))).foldl (fun res p => res.set p.1 p.2) l).length
      = l.length := by
  induction order generalizing l with
  | nil => rfl
  | cons i rest ih => simp [ih]

theorem slotWrites_getElem? (f : Nat → Str) (order : List Nat) (l : List Str) (j : Nat)
    (hj : j < l.length) :
    ((order.map (fun idx => (idx, f idx))).foldl (fun res p => res.set p.1 p.2) l)[j]?
      = if j ∈ order then some (f j) else l[j]? := by
  induction order generalizing l with
  | nil => simp
  | cons i rest ih =>
    simp only [List.map_cons, List.foldl_cons, List.mem_cons]
    rw [ih (l.set i (f i)) (by simpa using hj)]
    by_cases hjr : j ∈ rest
    · simp [hjr]
    · by_cases hji : j = i
      · subst hji
        simp [hjr, List.getElem?_set, hj]
      · simp [hjr, hji, List.getElem?_set, Ne.symm hji]

/-- C5: for a source with fragments `frags` (item `i` has fragment `frags[i]`) and
every completion order of the tasks, a permutation of `0..N-1`, the slot writes
leave slot `i` holding the fragment of item `i`, and the assembled body is the
concatenation of the fragments in source order. -/
theorem C5_join_is_source_order (frags : List Str) (order : List Nat)
    (hperm : order.Perm (List.range frags.length)) :
    joinResults frags.length (order.map (fun idx => (idx, frags.getD idx []))) = frags
    ∧ feedStr (joinResults frags.length (order.map (fun idx => (idx, frags.getD idx []))))
        = frags.flatten := by
  have hjoin : joinResults frags.length (order.map (fun idx => (idx, frags.getD idx [])))
      = frags := by
    unfold joinResults
    apply List.ext_getElem?
    intro j
    by_cases hj : j < frags.length
    · rw [slotWrites_getElem? _ _ _ _ (by simpa using hj)]
      have hmem : j ∈ order := (hperm.mem_iff).mpr (List.mem_range.mpr hj)
      simp [hmem, List.getD_eq_getElem?_getD, hj]
    · have h1 : frags[j]? = none := List.getElem?_eq_none (Nat.le_of_not_lt hj)
      rw [h1]
      apply List.getElem?_eq_none
      rw [slotWrites_length]
      simpa using Nat.le_of_not_lt hj
  exact ⟨hjoin, by rw [hjoin, feedStr_eq_flatten]⟩

/-- C5, instance: three tasks completing in the order 2, 0, 1. -/
theorem C5_join_is_source_order_witness :
    joinResults 3 ([2, 0, 1].map (fun idx => (idx, ["x".toList, "y".toList, "z".toList].getD idx [])))
      = ["x".toList, "y".toList, "z".toList] :=
  (C5_join_is_source_order ["x".toList, "y".toList, "z".toList] [2, 0, 1] (by decide)).1

/-- The per-source assembly: a source whose fragments are all empty (a source
without items included) writes nothing to the sink and does not call
`writeFeed`; a source with a non-empty fragment writes exactly one body, the
header `\n### favicon  title\n` followed by the concatenated fragments, when the
favicon is rendered, and aborts when `writeFavicon` panics. -/
theorem emitFeed_spec (w : Writer) (feed : Feed) (results : List Str) :
    ((∀ r ∈ results, r = []) → emitFeed w feed results = some [])
    ∧ (∀ favicon, (∃ r ∈ results, r ≠ []) → w.writeFavicon feed = some favicon →
        emitFeed w feed results
          = some ["\n### ".toList ++ favicon ++ "  ".toList ++ feed.title ++ "\n".toList
              ++ results.flatten])
    ∧ ((∃ r ∈ results, r ≠ []) → w.writeFavicon feed = none →
        emitFeed w feed results = none) := by
  unfold emitFeed writeFeed
  rw [feedStr_eq_flatten]
  refine ⟨?_, ?_, ?_⟩
  · intro h
    have : results.flatten = [] := List.flatten_eq_nil_iff.mpr h
    simp [this]
  · rintro favicon ⟨r, hr, hne⟩ hfav
    have : results.flatten ≠ [] := by
      intro h
      exact hne (List.flatten_eq_nil_iff.mp h r hr)
    simp [this, hfav]
  · rintro ⟨r, hr, hne⟩ hfav
    have : results.flatten ≠ [] := by
      intro h
      exact hne (List.flatten_eq_nil_iff.mp h r hr)
    simp [this, hfav]

/-- Instances of the per-source assembly with the Markdown writer: two
suppressed items give no write; one surviving item of a feed without feed link
gives one section under the default favicon. -/
theorem emitFeed_spec_witness :
    emitFeed (markdownWriter sampleUrlHost) ⟨"F".toList, [], [], []⟩ [[], []] = some []
    ∧ emitFeed (markdownWriter sampleUrlHost) ⟨"F".toList, [], [], []⟩ [[], "x".toList]
        = some ["\n### ".toList
            ++ [Char.ofNat 0xF0, Char.ofNat 0x9F, Char.ofNat 0x8D, Char.ofNat 0xB5]
            ++ "  ".toList ++ "F".toList ++ "\n".toList ++ [[], "x".toList].flatten] :=
  ⟨(emitFeed_spec (markdownWriter sampleUrlHost) ⟨"F".toList, [], [], []⟩ [[], []]).1
      (by decide),
   (emitFeed_spec (markdownWriter sampleUrlHost) ⟨"F".toList, [], [], []⟩
      [[], "x".toList]).2.1 _ ⟨"x".toList, by decide, by decide⟩ rfl⟩

/-- C7, evaluated at the failing input. With the Markdown writer, a feed whose
feed link `:feed` does not parse as a URL and one non-empty fragment, the
assembly reaches `writeFeed`, `writeFavicon` panics on the nil URL and the run
is aborted: no section is written. The same feed with a feed link that parses
gives exactly one section, header first. -/
theorem C7_unparseable_feed_link_aborts :
    MarkdownWriter.writeFavicon sampleUrlHost ⟨"F".toList, [], ":feed".toList, []⟩ = none
    ∧ emitFeed (markdownWriter sampleUrlHost) ⟨"F".toList, [], ":feed".toList, []⟩
        ["x".toList] = none
    ∧ emitFeed (markdownWriter sampleUrlHost)
        ⟨"F".toList, [], "https://a.io/feed".toList, []⟩ ["x".toList]
      = some [("\n### <img src=\"https://www.google.com/s2/favicons?sz=32&domain=a.io\""
          ++ " width=\"32\" height=\"32\" />  F\nx").toList] := by
  decide

/-! ## C8: comments link of a Hacker News item -/

theorem indexAux_first (sub pre rest : Str) (hne : sub ≠ [])
    (hsub : sub.isPrefixOf rest = true)
    (hfirst : ∀ k, k < pre.length → sub.isPrefixOf ((pre ++ rest).drop k) = false) :
    indexAux sub (pre ++ rest) = some pre.length := by
  induction pre with
  | nil =>
    cases rest with
    | nil =>
      cases sub with
      | nil => exact absurd rfl hne
      | cons a t => simp at hsub
    | cons c t => simp [indexAux, hsub]
  | cons c p ih =>
    have h0 := hfirst 0 (by simp)
    simp only [List.drop_zero, List.cons_append] at h0
    have ih2 := ih (fun k hk => by
      have := hfirst (k + 1) (by simpa using hk)
      simpa using this)
    simp [indexAux, h0, ih2]

theorem slice_middle (a b c : Str) (lo hi : Int) (hlo : lo = a.length)
    (hhi : hi = lo + b.length) : slice (a ++ b ++ c) lo hi = some b := by
  subst hlo hhi
  unfold slice
  have hcond : (0 : Int) ≤ (a.length : Int) ∧ (a.length : Int) ≤ (a.length : Int) + b.length
      ∧ (a.length : Int) + b.length ≤ ((a ++ b ++ c).length : Int) := by
    simp only [List.length_append, Nat.cast_add]
    omega
  rw [if_pos hcond]
  have h1 : ((a.length : Int) + (b.length : Int)).toNat - (a.length : Int).toNat = b.length := by
    omega
  rw [h1, Int.toNat_ofNat, List.append_assoc, List.drop_left, List.take_left]

theorem sliceFrom_tail (a b : Str) (lo : Int) (hlo : lo = a.length) :
    sliceFrom (a ++ b) lo = some b := by
  have := slice_middle a b [] lo ((a ++ b).length : Int) hlo (by
    subst hlo; simp)
  simpa [sliceFrom] using this

theorem replace_after_digits (ds : Str) (hds : ∀ c ∈ ds, c ≠ '<') :
    Replace (ds ++ ['<', '/', 'p', '>', '\n']) ['<', '/', 'p', '>', '\n'] [] = ds := by
  unfold Replace
  induction ds with
  | nil => rfl
  | cons c t ih =>
    have hc : ('<' == c) = false := by
      have := hds c (List.mem_cons_self _ _)
      simpa using fun h => this h.symm
    have iht := ih (fun x hx => hds x (List.mem_cons_of_mem _ hx))
    simp only [List.cons_append, replaceAux, List.isPrefixOf, hc, Bool.false_and,
      Bool.false_eq_true, if_false]
    show c :: replaceAux ['<', '/', 'p', '>', '\n'] [] 0 (t ++ ['<', '/', 'p', '>', '\n']) = c :: t
    rw [iht]

theorem digitChar_isDigit (m : Nat) (hm : m < 10) :
    '0' ≤ Nat.digitChar m ∧ Nat.digitChar m ≤ '9'
      ∧ (Nat.digitChar m).toNat - '0'.toNat = m := by
  interval_cases m <;> decide

theorem toDigitsCore_digits (fuel n : Nat) (ds : Str)
    (hds : ∀ c ∈ ds, '0' ≤ c ∧ c ≤ '9') :
    ∀ c ∈ Nat.toDigitsCore 10 fuel n ds, '0' ≤ c ∧ c ≤ '9' := by
  induction fuel generalizing n ds with
  | zero => simpa [Nat.toDigitsCore] using hds
  | succ f ih =>
    have hd := digitChar_isDigit (n % 10) (Nat.mod_lt _ (by decide))
    have hcons : ∀ c ∈ Nat.digitChar (n % 10) :: ds, '0' ≤ c ∧ c ≤ '9' := by
      intro c hc
      rcases List.mem_cons.mp hc with rfl | h
      · exact ⟨hd.1, hd.2.1⟩
      · exact hds c h
    unfold Nat.toDigitsCore
    simp only
    split
    · exact hcons
    · exact ih _ _ hcons

theorem toDigitsCore_ne_nil (fuel n : Nat) (ds : Str) (hf : 0 < fuel) :
    Nat.toDigitsCore 10 fuel n ds ≠ [] := by
  induction fuel generalizing n ds with
  | zero => omega
  | succ f ih =>
    unfold Nat.toDigitsCore
    simp only
    split
    · simp
    · cases f with
      | zero => simp [Nat.toDigitsCore]
      | succ g => exact ih _ _ (by omega)

theorem toDigitsCore_val (fuel n : Nat) (ds : Str) (hf : n < fuel) :
    digitsVal (Nat.toDigitsCore 10 fuel n ds) 0 = digitsVal ds n := by
  induction fuel generalizing n ds with
  | zero => omega
  | succ f ih =>
    have hd := digitChar_isDigit (n % 10) (Nat.mod_lt _ (by decide))
    unfold Nat.toDigitsCore
    simp only
    split
    · rename_i h0
      have hn : n % 10 = n := by omega
      simp only [digitsVal, hd.1, hd.2.1, and_self, if_true, hd.2.2]
      rw [hn]; simp
    · rename_i h0
      rw [ih (n / 10) _ (by omega)]
      simp only [digitsVal, hd.1, hd.2.1, and_self, if_true, hd.2.2]
      congr 1
      omega

theorem digitsVal_ge (ds : Str) (acc v : Nat) (h : digitsVal ds acc = some v) : acc ≤ v := by
  induction ds generalizing acc with
  | nil => simp [digitsVal] at h; omega
  | cons c t ih =>
    unfold digitsVal at h
    split at h
    · have := ih _ h
      omega
    · simp at h

theorem digitsVal_lt (ds : Str) (acc v : Nat) (h : digitsVal ds acc = some v) :
    v < (acc + 1) * 10 ^ ds.length := by
  induction ds generalizing acc with
  | nil => simp [digitsVal] at h; simp; omega
  | cons c t ih =>
    unfold digitsVal at h
    split at h
    · rename_i hc
      have h1 := ih _ h
      have hd : c.toNat - '0'.toNat ≤ 9 := by
        have : c.toNat ≤ '9'.toNat := hc.2
        have e : '9'.toNat - '0'.toNat = 9 := by decide
        omega
      have h2 : (acc * 10 + (c.toNat - '0'.toNat) + 1) * 10 ^ t.length
          ≤ (acc + 1) * 10 ^ (t.length + 1) := by
        rw [pow_succ]
        have : acc * 10 + (c.toNat - '0'.toNat) + 1 ≤ (acc + 1) * 10 := by omega
        calc (acc * 10 + (c.toNat - '0'.toNat) + 1) * 10 ^ t.length
            ≤ ((acc + 1) * 10) * 10 ^ t.length := Nat.mul_le_mul_right _ this
          _ = (acc + 1) * (10 ^ t.length * 10) := by ring
      simp only [List.length_cons]
      omega
    · simp at h

theorem parseUintLoop_digits (ds : Str) (acc v : Nat) (h : digitsVal ds acc = some v)
    (hacc : acc ≤ 2 ^ 64 - 1) :
    parseUintLoop ds acc = if v ≤ 2 ^ 64 - 1 then UintResult.ok v else UintResult.rangeError := by
  induction ds generalizing acc with
  | nil =>
    simp only [digitsVal, Option.some.injEq] at h
    subst h
    unfold parseUintLoop
    rw [if_pos hacc]
  | cons c t ih =>
    unfold digitsVal at h
    split at h
    · rename_i hc
      have hge := digitsVal_ge _ _ _ h
      unfold parseUintLoop
      rw [if_pos hc]
      by_cases h1 : acc ≥ (2 ^ 64 - 1) / 10 + 1
      · have : ¬ v ≤ 2 ^ 64 - 1 := by norm_num at h1 ⊢; omega
        rw [if_pos h1, if_neg this]
      · by_cases h2 : acc * 10 + (c.toNat - '0'.toNat) > 2 ^ 64 - 1
        · have : ¬ v ≤ 2 ^ 64 - 1 := by omega
          rw [if_neg h1, if_pos h2, if_neg this]
        · rw [if_neg h1, if_neg h2]
          exact ih _ h (by omega)
    · simp at h

theorem splitSign_digit (c : Char) (t : Str) (hc : '0' ≤ c ∧ c ≤ '9') :
    splitSign (c :: t) = (false, c :: t) := by
  have h1 : c ≠ '-' := by rintro rfl; exact absurd hc.1 (by decide)
  have h2 : c ≠ '+' := by rintro rfl; exact absurd hc.1 (by decide)
  unfold splitSign
  split
  · rename_i t2 heq
    exact absurd (List.cons.inj heq).1 h1
  · rename_i t2 heq
    exact absurd (List.cons.inj heq).1 h2
  · rfl

theorem Atoi_Itoa (n : Nat) : Atoi (Itoa n) = min ((2 : Int) ^ 63 - 1) (n : Int) := by
  have hdig : ∀ c ∈ Itoa n, '0' ≤ c ∧ c ≤ '9' :=
    toDigitsCore_digits (n + 1) n [] (by simp)
  have hne : Itoa n ≠ [] := toDigitsCore_ne_nil (n + 1) n [] (by omega)
  have hval : digitsVal (Itoa n) 0 = some n := by
    have := toDigitsCore_val (n + 1) n [] (by omega)
    simpa [digitsVal, Itoa, Nat.toDigits] using this
  cases hI : Itoa n with
  | nil => exact absurd hI hne
  | cons c t =>
    have hc := hdig c (by rw [hI]; exact List.mem_cons_self _ _)
    have hsign := splitSign_digit c t hc
    rw [hI] at hval
    unfold Atoi
    by_cases hlen : 0 < (c :: t).length ∧ (c :: t).length < 19
    · rw [if_pos hlen]
      simp only [hsign, hval]
      have hlt := digitsVal_lt _ _ _ hval
      have hpow : 10 ^ (c :: t).length ≤ 10 ^ 18 :=
        Nat.pow_le_pow_right (by norm_num) (by omega)
      have hn : n < 10 ^ 18 := by
        have : n < 10 ^ (c :: t).length := by simpa using hlt
        exact lt_of_lt_of_le this hpow
      have hn' : (n : Int) < 1000000000000000000 := by
        have : n < 1000000000000000000 := by norm_num at hn; exact hn
        exact_mod_cast this
      clear hlt hpow hn
      have hle : (n : Int) ≤ 2 ^ 63 - 1 := by norm_num; omega
      rw [min_eq_right hle]
      simp only [Bool.false_eq_true, if_false]
      rw [if_neg (by simp)]
    · rw [if_neg hlen]
      unfold parseIntValue
      simp only [hsign]
      rw [parseUintLoop_digits _ _ _ hval (by norm_num), if_neg (by simp)]
      by_cases hv : n ≤ 2 ^ 64 - 1
      · rw [if_pos hv]
        simp only [Bool.not_false, Bool.true_and, Bool.false_and, decide_eq_true_eq,
          Bool.false_eq_true, if_false]
        by_cases h63 : n ≥ 2 ^ 63
        · have hle : (2 : Int) ^ 63 - 1 ≤ n := by
            have : (2 : Int) ^ 63 ≤ n := by exact_mod_cast h63
            omega
          rw [min_eq_left hle, if_pos h63]
        · have hle : (n : Int) ≤ 2 ^ 63 - 1 := by
            have : n < 2 ^ 63 := by omega
            have : (n : Int) < 2 ^ 63 := by exact_mod_cast this
            omega
          rw [min_eq_right hle, if_neg h63]
      · rw [if_neg hv]
        have hle : (2 : Int) ^ 63 - 1 ≤ n := by
          have : 2 ^ 63 ≤ n := by omega
          have : (2 : Int) ^ 63 ≤ n := by exact_mod_cast this
          omega
        rw [min_eq_left hle]
        simp only [Bool.false_eq_true, if_false]

theorem getCommentsInfo_layout (item : Item) (pre link mid : Str) (n : Nat)
    (hlink : link.length = 45)
    (hdesc : item.description = pre ++ "Comments URL: <a href=\"".toList ++ link ++ mid
      ++ "# Comments: ".toList ++ Itoa n ++ "</p>\n".toList)
    (hfirstURL : ∀ k, k < pre.length → ¬ "Comments URL".toList <+: item.description.drop k)
    (hfirstCount : ∀ k,
      k < (pre ++ "Comments URL: <a href=\"".toList ++ link ++ mid ++ "# ".toList).length →
      ¬ "Comments:".toList <+: item.description.drop k) :
    getCommentsInfo item = some (link, min ((2 : Int) ^ 63 - 1) (n : Int)) := by
  -- first occurrence of the link label
  have hd1 : item.description = pre ++ ("Comments URL".toList ++ (": <a href=\"".toList ++ link
      ++ mid ++ "# Comments: ".toList ++ Itoa n ++ "</p>\n".toList)) := by
    rw [hdesc]; simp [List.append_assoc]
  have hi1 : indexAux "Comments URL".toList item.description = some pre.length := by
    rw [hd1]
    apply indexAux_first
    · decide
    · rw [List.isPrefixOf_iff_prefix]; exact List.prefix_append _ _
    · intro k hk
      rw [← hd1, Bool.eq_false_iff]
      intro h
      exact hfirstURL k hk (List.isPrefixOf_iff_prefix.mp h)
  -- first occurrence of the count label
  have hd2 : item.description
      = (pre ++ "Comments URL: <a href=\"".toList ++ link ++ mid ++ "# ".toList)
        ++ ("Comments:".toList ++ (" ".toList ++ Itoa n ++ "</p>\n".toList)) := by
    rw [hdesc]; simp [List.append_assoc]
  have hi2 : indexAux "Comments:".toList item.description
      = some (pre ++ "Comments URL: <a href=\"".toList ++ link ++ mid ++ "# ".toList).length := by
    rw [hd2]
    apply indexAux_first
    · decide
    · rw [List.isPrefixOf_iff_prefix]; exact List.prefix_append _ _
    · intro k hk
      rw [← hd2, Bool.eq_false_iff]
      intro h
      exact hfirstCount k hk (List.isPrefixOf_iff_prefix.mp h)
  -- the two slices
  have hs1 : slice item.description ((pre.length : Int) + 23) ((pre.length : Int) + 23 + 45)
      = some link := by
    have hd3 : item.description = (pre ++ "Comments URL: <a href=\"".toList) ++ link
        ++ (mid ++ "# Comments: ".toList ++ Itoa n ++ "</p>\n".toList) := by
      rw [hdesc]; simp [List.append_assoc]
    rw [hd3]
    apply slice_middle
    · simp
    · rw [hlink]; rfl
  have hs2 : sliceFrom item.description
      (((pre ++ "Comments URL: <a href=\"".toList ++ link ++ mid ++ "# ".toList).length : Int) + 10)
      = some (Itoa n ++ "</p>\n".toList) := by
    have hd4 : item.description
        = (pre ++ "Comments URL: <a href=\"".toList ++ link ++ mid ++ "# ".toList
            ++ "Comments: ".toList) ++ (Itoa n ++ "</p>\n".toList) := by
      rw [hdesc]; simp [List.append_assoc]
    rw [hd4]
    apply sliceFrom_tail
    simp only [List.length_append, Nat.cast_add]
    have : "Comments: ".toList.length = 10 := rfl
    rw [this]
    rfl
  have hrep : Replace (Itoa n ++ "</p>\n".toList) "</p>\n".toList [] = Itoa n := by
    apply replace_after_digits
    intro c hc
    have := toDigitsCore_digits (n + 1) n [] (by simp) c hc
    rintro rfl
    exact absurd this.2 (by decide)
  unfold getCommentsInfo
  simp only [Index, hi1, hi2, hs1, hs2, hrep, Atoi_Itoa]

/-- The fragment of an item that passes the guard is its comments link followed
by its body. -/
theorem processFeedItem_fragment (env : Env) (currentDate : Str) (db : DB) (w : Writer)
    (feed : Feed) (rss : RSS) (item : Item) (cfg : Config) (out : Outcome)
    (hseen : (isSeenArticle db currentDate item []).1 = false)
    (h : processFeedItem env currentDate db w feed rss item cfg = some out) :
    ∃ marker summary, commentsPart w feed item = some marker
      ∧ out.fragment = marker ++ itemBody env w rss item cfg summary := by
  unfold processFeedItem processAfterLookup at h
  simp only [hseen, Bool.false_eq_true, if_false] at h
  cases hs : summaryStep env cfg rss item (isSeenArticle db currentDate item []).2.2 with
  | none => simp [hs] at h
  | some p =>
    obtain ⟨summary, calls⟩ := p
    cases hm : commentsPart w feed item with
    | none => simp [hs, hm] at h
    | some marker =>
      simp only [hs, hm] at h
      refine ⟨marker, summary, rfl, ?_⟩
      split at h
      · cases ha : addToSeenTable db currentDate item.link summary with
        | none => simp [ha] at h
        | some db2 =>
          simp only [ha] at h
          cases h
          rfl
      · cases h
        rfl

/-- What `getCommentsInfo` gets right: on a feed whose link contains
`news.ycombinator.com`, for a description made of the label
`Comments URL: <a href="`, a 45-byte link, further text and `# Comments: n</p>\n`
at the end, in which the labels `Comments URL` and `Comments:` occur there for
the first time, the comments link is rendered to that link with the
high-activity marker when `n ≥ 100` and the normal marker when `n < 100`, and
it opens the fragment of every item that passes the guard. -/
theorem commentsPart_marker_by_count (env : Env) (currentDate : Str) (db : DB) (w : Writer)
    (feed : Feed) (rss : RSS) (item : Item) (cfg : Config) (pre link mid : Str) (n : Nat)
    (hfeed : Contains feed.link "news.ycombinator.com".toList = true)
    (hlink : link.length = 45)
    (hdesc : item.description = pre ++ "Comments URL: <a href=\"".toList ++ link ++ mid
      ++ "# Comments: ".toList ++ Itoa n ++ "</p>\n".toList)
    (hfirstURL : ∀ k, k < pre.length → ¬ "Comments URL".toList <+: item.description.drop k)
    (hfirstCount : ∀ k,
      k < (pre ++ "Comments URL: <a href=\"".toList ++ link ++ mid ++ "# ".toList).length →
      ¬ "Comments:".toList <+: item.description.drop k) :
    commentsPart w feed item
        = some (w.writeLink (if n < 100 then markerNormal else markerHot) link false [])
    ∧ ∀ out, (isSeenArticle db currentDate item []).1 = false →
        processFeedItem env currentDate db w feed rss item cfg = some out →
        ∃ rest, out.fragment
          = w.writeLink (if n < 100 then markerNormal else markerHot) link false [] ++ rest := by
  have hinfo := getCommentsInfo_layout item pre link mid n hlink hdesc hfirstURL hfirstCount
  have hpart : commentsPart w feed item
      = some (w.writeLink (if n < 100 then markerNormal else markerHot) link false []) := by
    unfold commentsPart
    simp only [hfeed, if_true, hinfo]
    by_cases hn : n < 100
    · have : min ((2 : Int) ^ 63 - 1) (n : Int) < 100 := by omega
      simp [hn, this]
    · have : ¬ min ((2 : Int) ^ 63 - 1) (n : Int) < 100 := by omega
      simp [hn, this]
  refine ⟨hpart, ?_⟩
  intro out hseen hout
  obtain ⟨marker, summary, hm, hfrag⟩ :=
    processFeedItem_fragment env currentDate db w feed rss item cfg out hseen hout
  rw [hpart] at hm
  cases hm
  exact ⟨_, hfrag⟩

set_option maxRecDepth 100000 in
/-- Instance: an hnrss description with 150 comments. -/
theorem commentsPart_marker_by_count_witness :
    commentsPart (markdownWriter sampleUrlHost) hnFeed
        ⟨"T".toList, "l".toList,
          hnDescription "https://a.io/x".toList
            "https://news.ycombinator.com/item?id=12345678".toList 150, []⟩
      = some ((markdownWriter sampleUrlHost).writeLink markerHot
          "https://news.ycombinator.com/item?id=12345678".toList false []) :=
  (commentsPart_marker_by_count offlineEnv "2024-05-02".toList ⟨[], false, false⟩
    (markdownWriter sampleUrlHost) hnFeed ⟨[], 10, false⟩
    ⟨"T".toList, "l".toList,
      hnDescription "https://a.io/x".toList
        "https://news.ycombinator.com/item?id=12345678".toList 150, []⟩
    ⟨5000, false, false, false, false⟩
    ("<p>Article URL: <a href=\"".toList ++ "https://a.io/x".toList ++ "\">".toList
      ++ "https://a.io/x".toList ++ "</a></p>\n<p>".toList)
    "https://news.ycombinator.com/item?id=12345678".toList
    ("\">".toList ++ "https://news.ycombinator.com/item?id=12345678".toList
      ++ "</a></p>\n<p>Points: 500</p>\n<p>".toList)
    150 (by decide) (by decide) (by decide) (by decide) (by decide)).1

set_option maxRecDepth 100000 in
/-- C8, evaluated at the failing input. The description is in the hnrss layout
and states 150 comments, but the article URL contains `Comments:`; the count is
read after that first occurrence, `Atoi` fails to 0, and the item, which passes
the guard, opens with the normal marker where the claim has the high-activity
one. -/
theorem C8_label_in_article_url :
    hnDescription "https://a.io/Comments:x".toList
        "https://news.ycombinator.com/item?id=12345678".toList 150
      = ("<p>Article URL: <a href=\"".toList ++ "https://a.io/Comments:x".toList ++ "\">".toList
          ++ "https://a.io/Comments:x".toList ++ "</a></p>\n<p>".toList)
        ++ "Comments URL: <a href=\"".toList
        ++ "https://news.ycombinator.com/item?id=12345678".toList
        ++ ("\">".toList ++ "https://news.ycombinator.com/item?id=12345678".toList
          ++ "</a></p>\n<p>Points: 500</p>\n<p>".toList)
        ++ "# Comments: ".toList ++ "150".toList ++ "</p>\n".toList
    ∧ (isSeenArticle ⟨[], false, false⟩ "2024-05-02".toList
        ⟨"T".toList, "l".toList,
          hnDescription "https://a.io/Comments:x".toList
            "https://news.ycombinator.com/item?id=12345678".toList 150, []⟩ []).1 = false
    ∧ (processFeedItem offlineEnv "2024-05-02".toList ⟨[], false, false⟩ (markdownWriter sampleUrlHost)
        hnFeed ⟨[], 10, false⟩
        ⟨"T".toList, "l".toList,
          hnDescription "https://a.io/Comments:x".toList
            "https://news.ycombinator.com/item?id=12345678".toList 150, []⟩
        ⟨5000, false, false, false, false⟩).map Outcome.fragment
      = some ((markdownWriter sampleUrlHost).writeLink markerNormal
            "https://news.ycombinator.com/item?id=12345678".toList false []
          ++ "[T](l)  \n".toList) := by
  decide

/-! ## C9: item limit of `parseFeed` -/

/-- C9: when the feed parses and the limit is non-negative, `parseFeed` returns
the feed with the first `limit` items of the parsed sequence, in their order:
`min(len, limit)` items, and the items unchanged when `len ≤ limit`. -/
theorem C9_parseFeed_keeps_first_items (env : Env) (url : Str) (limit : Int) (feed : Feed)
    (hparse : env.ParseURL url = some feed) (hlimit : 0 ≤ limit) :
    parseFeed env url limit = some (some { feed with items := feed.items.take limit.toNat })
    ∧ (feed.items.take limit.toNat).length = min feed.items.length limit.toNat
    ∧ ((feed.items.length : Int) ≤ limit → feed.items.take limit.toNat = feed.items) := by
  have hfull : (feed.items.length : Int) ≤ limit → feed.items.take limit.toNat = feed.items := by
    intro h
    apply List.take_of_length_le
    omega
  refine ⟨?_, ?_, hfull⟩
  · unfold parseFeed
    simp only [hparse]
    by_cases hgt : (feed.items.length : Int) > limit
    · have : ¬ limit < 0 := by omega
      simp [hgt, this]
    · simp only [hgt, if_false]
      rw [hfull (by omega)]
  · rw [List.length_take]
    omega

/-- C9, instance: limit 10 on a feed of 12 items keeps the first 10. -/
theorem C9_parseFeed_keeps_first_items_witness :
    parseFeed twelveItemEnv "u".toList 10
      = some (some ⟨"F".toList, [], [],
          (List.range 10).map (fun i => ⟨Itoa i, [], [], []⟩)⟩) :=
  (C9_parseFeed_keeps_first_items
    twelveItemEnv "u".toList 10
    ⟨"F".toList, [], [], (List.range 12).map (fun i => ⟨Itoa i, [], [], []⟩)⟩ rfl
    (by decide)).1

/-! ## C10: short article texts -/

/-- A text shorter than 200 bytes is not sent to the completion endpoint. -/
theorem summarize_short (env : Env) (text : Str) (cfg : Config)
    (hlimit : 0 ≤ cfg.SummaryArticleLengthLimit) (hshort : text.length < 200) :
    summarize env text cfg = some ([], []) := by
  unfold summarize
  have hnot : ¬ cfg.SummaryArticleLengthLimit < 0 := by omega
  rw [if_neg hnot]
  by_cases hgt : (text.length : Int) > cfg.SummaryArticleLengthLimit
  · have : (List.take cfg.SummaryArticleLengthLimit.toNat text).length < 200 := by
      rw [List.length_take]; omega
    simp only [hgt, if_true]
    rw [if_pos this]
  · simp only [hgt, if_false]
    rw [if_pos hshort]

/-- C10, as the code has it: for a new item on a summarizing source whose
extracted article text is shorter than 200 bytes (an extraction failure
included), with a non-negative length limit, no summarization request is sent
and `summarize` yields the empty string; `getSummary` then falls back to the
item description, which is what the summary block of the fragment renders and
what is recorded in the ledger. -/
theorem C10_short_text_falls_back_to_description (env : Env) (currentDate : Str) (db : DB)
    (w : Writer) (feed : Feed) (rss : RSS) (item : Item) (cfg : Config) (marker : Str)
    (hnew : ∀ r ∈ db.rows, r.url ≠ item.link)
    (hsumm : rss.summarize = true)
    (hshort : ∀ text, env.FromURL item.link = some text → text.length < 200)
    (hlimit : 0 ≤ cfg.SummaryArticleLengthLimit)
    (hmark : commentsPart w feed item = some marker) :
    getSummaryFromLink env cfg item.link = some ([], [])
    ∧ getSummary env cfg rss item item.link = some (item.description, [])
    ∧ processFeedItem env currentDate db w feed rss item cfg
        = some ⟨marker ++ itemBody env w rss item cfg item.description,
                { db with rows := db.rows ++ [⟨item.link, currentDate, some item.description⟩] },
                []⟩
    ∧ ∃ before after : Str, itemBody env w rss item cfg item.description
        = before ++ w.writeSummary item.description true ++ after := by
  have hsl : getSummaryFromLink env cfg item.link = some ([], []) := by
    unfold getSummaryFromLink
    apply summarize_short _ _ _ hlimit
    cases h : env.FromURL item.link with
    | none => simp
    | some t => simpa using hshort t h
  have hgs : getSummary env cfg rss item item.link = some (item.description, []) := by
    unfold getSummary
    simp [hsumm, hsl]
  have hlook : isSeenArticle db currentDate item [] = (false, false, []) := by
    unfold isSeenArticle
    split
    · rfl
    · have hq : queryRow db (item.link ++ []) = none := by
        unfold queryRow
        rw [List.find?_eq_none]
        intro r hr
        simpa using hnew r hr
      simp only [List.append_nil] at hq
      simp [hq]
  refine ⟨hsl, hgs, ?_, ?_⟩
  · unfold processFeedItem processAfterLookup
    simp [hlook, summaryStep, hgs, hmark, addToSeenTable_fresh db currentDate item.link _ hnew]
  · refine ⟨(if cfg.Instapaper && !cfg.TerminalMode then getInstapaperLink item.link else [])
        ++ w.writeLink (if item.title = [] then env.stripHtmlRegex item.description
            else item.title) item.link true
            (if cfg.ReadingTime then getReadingTime env item.link else []),
      (if cfg.ShowImages && !cfg.TerminalMode then
        (if env.imageTag item.content ≠ [] then env.imageTag item.content ++ "\n".toList else [])
       else []), ?_⟩
    simp [itemBody, hsumm]

set_option maxRecDepth 20000 in
/-- C10 as stated fails: with an article text of 150 bytes and the description
`desc`, no request is sent, yet `getSummary` returns `desc`, not the empty
string, and the fragment carries the summary block `desc`. -/
theorem C10_short_text_summary_is_description :
    getSummary shortArticleEnv
        ⟨5000, false, false, false, false⟩ ⟨[], 10, true⟩
        ⟨"T".toList, "l".toList, "desc".toList, []⟩ "l".toList
      = some ("desc".toList, [])
    ∧ (processFeedItem shortArticleEnv
        "2024-05-02".toList ⟨[], false, false⟩ (markdownWriter sampleUrlHost)
        ⟨"F".toList, "http://x".toList, [], []⟩ ⟨[], 10, true⟩
        ⟨"T".toList, "l".toList, "desc".toList, []⟩ ⟨5000, false, false, false, false⟩).map
          Outcome.fragment
      = some ("[T](l)  \n".toList ++ (markdownWriter sampleUrlHost).writeSummary "desc".toList true)
    ∧ (markdownWriter sampleUrlHost).writeSummary "desc".toList true = "desc  \n\n".toList := by
  decide

set_option maxRecDepth 20000 in
/-- C10, instance: an article text of 150 bytes. -/
theorem C10_short_text_falls_back_to_description_witness :
    getSummary shortArticleEnv ⟨5000, false, false, false, false⟩ ⟨[], 10, true⟩
        ⟨"T".toList, "l".toList, "desc".toList, []⟩ "l".toList
      = some ("desc".toList, []) :=
  (C10_short_text_falls_back_to_description shortArticleEnv "2024-05-02".toList
    ⟨[], false, false⟩ (markdownWriter sampleUrlHost) ⟨"F".toList, "http://x".toList, [], []⟩
    ⟨[], 10, true⟩ ⟨"T".toList, "l".toList, "desc".toList, []⟩
    ⟨5000, false, false, false, false⟩ []
    (by decide) rfl
    (by intro text h; cases h; decide)
    (by decide) (by decide)).2.1

/-! ## C11: size of the lead image -/

theorem bitLenAux_bounds (fuel n : Nat) (h : n ≤ fuel) :
    n < 2 ^ bitLenAux fuel n ∧ (0 < n → 2 ^ (bitLenAux fuel n - 1) ≤ n) := by
  induction fuel generalizing n with
  | zero =>
    have : n = 0 := by omega
    subst this
    simp [bitLenAux]
  | succ f ih =>
    unfold bitLenAux
    by_cases hn : n = 0
    · subst hn; simp
    · simp only [hn, if_false]
      obtain ⟨ih1, ih2⟩ := ih (n / 2) (by omega)
      constructor
      · rw [pow_succ]; omega
      · intro _
        simp only [Nat.add_sub_cancel]
        by_cases h2 : n / 2 = 0
        · have hb : bitLenAux f (n / 2) = 0 := by
            rw [h2]; cases f <;> simp [bitLenAux]
          rw [hb]; simp; omega
        · have hpos : 0 < bitLenAux f (n / 2) := by
            rcases Nat.eq_zero_or_pos (bitLenAux f (n / 2)) with h0 | h0
            · rw [h0] at ih1; simp at ih1; exact absurd ih1 h2
            · exact h0
          have := ih2 (by omega)
          have hp : 2 ^ bitLenAux f (n / 2) = 2 * 2 ^ (bitLenAux f (n / 2) - 1) := by
            conv_lhs => rw [← Nat.sub_add_cancel hpos]
            rw [pow_succ]; ring
          rw [hp]; omega

theorem lt_two_pow_bitLen (n : Nat) : n < 2 ^ bitLen n :=
  (bitLenAux_bounds n n (Nat.le_refl n)).1

theorem two_pow_bitLen_le (n : Nat) (hn : 0 < n) : 2 ^ (bitLen n - 1) ≤ n :=
  (bitLenAux_bounds n n (Nat.le_refl n)).2 hn

theorem bitLen_pos (n : Nat) (hn : 0 < n) : 0 < bitLen n := by
  rcases Nat.eq_zero_or_pos (bitLen n) with h0 | h0
  · have := lt_two_pow_bitLen n
    rw [h0] at this; simp at this; omega
  · exact h0

/-- A power of two with an integer exponent, as a quotient of two powers with
natural exponents. -/
theorem zpow_two_eq (s : Int) :
    (2 : ℚ) ^ s = (2 : ℚ) ^ s.toNat / (2 : ℚ) ^ (-s).toNat := by
  rcases le_total 0 s with h | h
  · have h1 : (-s).toNat = 0 := by omega
    have h2 : s = (s.toNat : Int) := by omega
    rw [h1, pow_zero, div_one]
    conv_lhs => rw [h2]
    rw [zpow_natCast]
  · have h1 : s.toNat = 0 := by omega
    have h2 : s = -((-s).toNat : Int) := by omega
    rw [h1, pow_zero]
    conv_lhs => rw [h2]
    rw [zpow_neg, zpow_natCast, one_div]

theorem binExp_test_iff (n d : Nat) (hd : 0 < d) (s : Int) :
    2 ^ s.toNat * d ≤ n * 2 ^ (-s).toNat ↔ (2 : ℚ) ^ s ≤ (n : ℚ) / (d : ℚ) := by
  have hdq : (0 : ℚ) < d := by exact_mod_cast hd
  have hB : (0 : ℚ) < (2 : ℚ) ^ (-s).toNat := by positivity
  rw [zpow_two_eq, div_le_div_iff₀ hB hdq]
  constructor
  · intro h
    have : ((2 ^ s.toNat * d : Nat) : ℚ) ≤ ((n * 2 ^ (-s).toNat : Nat) : ℚ) := by exact_mod_cast h
    push_cast at this
    linarith
  · intro h
    have : ((2 ^ s.toNat * d : Nat) : ℚ) ≤ ((n * 2 ^ (-s).toNat : Nat) : ℚ) := by
      push_cast; linarith
    exact_mod_cast this

/-- The binary exponent is a lower bound: `2 ^ e ≤ n / d`. -/
theorem binExp_le (n d : Nat) (hn : 0 < n) (hd : 0 < d) :
    (2 : ℚ) ^ binExp n d ≤ (n : ℚ) / (d : ℚ) := by
  have hdq : (0 : ℚ) < d := by exact_mod_cast hd
  unfold binExp
  have hneg : (bitLen d : Int) - (bitLen n : Int) = -((bitLen n : Int) - (bitLen d : Int)) := by
    ring
  rw [hneg]
  split
  · rename_i h
    exact (binExp_test_iff n d hd _).mp h
  · have h1 : ((2 : ℚ) ^ (bitLen n - 1)) ≤ (n : ℚ) := by
      exact_mod_cast two_pow_bitLen_le n hn
    have h2 : (d : ℚ) ≤ (2 : ℚ) ^ bitLen d := by
      exact_mod_cast (lt_two_pow_bitLen d).le
    have hbn := bitLen_pos n hn
    have he : (bitLen n : Int) - (bitLen d : Int) - 1
        = ((bitLen n - 1 : Nat) : Int) - ((bitLen d : Nat) : Int) := by
      omega
    rw [he, zpow_sub₀ (by norm_num : (2 : ℚ) ≠ 0), zpow_natCast, zpow_natCast]
    rw [div_le_div_iff₀ (by positivity) hdq]
    calc (2 : ℚ) ^ (bitLen n - 1) * d ≤ (2 : ℚ) ^ (bitLen n - 1) * 2 ^ bitLen d := by
          apply mul_le_mul_of_nonneg_left h2 (by positivity)
      _ ≤ n * 2 ^ bitLen d := by
          apply mul_le_mul_of_nonneg_right h1 (by positivity)

/-- The binary exponent is sharp: `n / d < 2 ^ (e + 1)`. -/
theorem lt_binExp_succ (n d : Nat) (hd : 0 < d) :
    (n : ℚ) / (d : ℚ) < (2 : ℚ) ^ (binExp n d + 1) := by
  have hdq : (0 : ℚ) < d := by exact_mod_cast hd
  unfold binExp
  have hneg : (bitLen d : Int) - (bitLen n : Int) = -((bitLen n : Int) - (bitLen d : Int)) := by
    ring
  rw [hneg]
  split
  · have h1 : (n : ℚ) < (2 : ℚ) ^ bitLen n := by
      exact_mod_cast lt_two_pow_bitLen n
    have h2 : ((2 : ℚ) ^ (bitLen d - 1)) ≤ (d : ℚ) := by
      exact_mod_cast two_pow_bitLen_le d hd
    have hbd := bitLen_pos d hd
    have he : (bitLen n : Int) - (bitLen d : Int) + 1
        = ((bitLen n : Nat) : Int) - ((bitLen d - 1 : Nat) : Int) := by
      omega
    rw [he, zpow_sub₀ (by norm_num : (2 : ℚ) ≠ 0), zpow_natCast, zpow_natCast]
    rw [div_lt_div_iff₀ hdq (by positivity)]
    calc (n : ℚ) * 2 ^ (bitLen d - 1) < (2 : ℚ) ^ bitLen n * 2 ^ (bitLen d - 1) := by
          apply mul_lt_mul_of_pos_right h1 (by positivity)
      _ ≤ 2 ^ bitLen n * d := by
          apply mul_le_mul_of_nonneg_left h2 (by positivity)
  · rename_i h
    have := (binExp_test_iff n d hd _).not.mp h
    simpa using this

/-- Rounding to the nearest integer is off by at most one half. -/
theorem roundHalfEven_err (N D : Nat) (hD : 0 < D) :
    |((roundHalfEven N D : Nat) : ℚ) - (N : ℚ) / (D : ℚ)| ≤ 1 / 2 := by
  have hDq : (0 : ℚ) < D := by exact_mod_cast hD
  have hdm : ((D * (N / D) + N % D : Nat) : ℚ) = (N : ℚ) := by
    exact_mod_cast congrArg (fun x : Nat => (x : ℚ)) (Nat.div_add_mod N D)
  push_cast at hdm
  have hr : ((N % D : Nat) : ℚ) < D := by exact_mod_cast Nat.mod_lt N hD
  have hr0 : (0 : ℚ) ≤ ((N % D : Nat) : ℚ) := by positivity
  have hND : (N : ℚ) / D = ((N / D : Nat) : ℚ) + ((N % D : Nat) : ℚ) / D := by
    rw [← hdm]; field_simp; ring
  rw [hND, abs_le]
  unfold roundHalfEven
  split
  · rename_i h
    have h' : 2 * ((N % D : Nat) : ℚ) < D := by exact_mod_cast h
    have : ((N % D : Nat) : ℚ) / D ≤ 1 / 2 := by
      rw [div_le_div_iff₀ hDq (by norm_num)]; linarith
    have : 0 ≤ ((N % D : Nat) : ℚ) / D := by positivity
    constructor <;> linarith
  · rename_i h
    have h' : (D : ℚ) ≤ 2 * ((N % D : Nat) : ℚ) := by exact_mod_cast Nat.le_of_not_lt h
    have h1 : (1 : ℚ) / 2 ≤ ((N % D : Nat) : ℚ) / D := by
      rw [div_le_div_iff₀ (by norm_num) hDq]; linarith
    have h2 : ((N % D : Nat) : ℚ) / D < 1 := by
      rw [div_lt_one hDq]; exact hr
    split
    · push_cast; constructor <;> linarith
    · rename_i h3
      have h3' : 2 * ((N % D : Nat) : ℚ) ≤ D := by exact_mod_cast Nat.le_of_not_lt h3
      have h4 : ((N % D : Nat) : ℚ) / D ≤ 1 / 2 := by
        rw [div_le_div_iff₀ hDq (by norm_num)]; linarith
      split
      · constructor <;> linarith
      · push_cast; constructor <;> linarith

theorem roundNearestEven_den_pos (n d : Nat) : 0 < (roundNearestEven n d).den := by
  unfold roundNearestEven
  positivity

/-- Rounding to binary64 has a relative error of at most `2 ^ (-53)`. -/
theorem roundNearestEven_err (n d : Nat) (hn : 0 < n) (hd : 0 < d) :
    |(roundNearestEven n d).toRat - (n : ℚ) / (d : ℚ)| ≤ (n : ℚ) / (d : ℚ) / 2 ^ 53 := by
  have hnq : (0 : ℚ) < n := by exact_mod_cast hn
  have hdq : (0 : ℚ) < d := by exact_mod_cast hd
  have hexp := binExp_le n d hn hd
  have hneg : binExp n d - 52 = -(52 - binExp n d) := by ring
  have hz := zpow_two_eq (52 - binExp n d)
  rw [← hneg] at hz
  have hA : (0 : ℚ) < (2 : ℚ) ^ (52 - binExp n d).toNat := by positivity
  have hB : (0 : ℚ) < (2 : ℚ) ^ (binExp n d - 52).toNat := by positivity
  have hD : 0 < d * 2 ^ (binExp n d - 52).toNat := by positivity
  have herr := roundHalfEven_err (n * 2 ^ (52 - binExp n d).toNat)
    (d * 2 ^ (binExp n d - 52).toNat) hD
  have hval : (roundNearestEven n d).toRat - (n : ℚ) / (d : ℚ)
      = (((roundHalfEven (n * 2 ^ (52 - binExp n d).toNat)
            (d * 2 ^ (binExp n d - 52).toNat) : Nat) : ℚ)
          - ((n * 2 ^ (52 - binExp n d).toNat : Nat) : ℚ)
            / ((d * 2 ^ (binExp n d - 52).toNat : Nat) : ℚ))
        * ((2 : ℚ) ^ (binExp n d - 52).toNat / (2 : ℚ) ^ (52 - binExp n d).toNat) := by
    unfold roundNearestEven F64.toRat
    push_cast
    field_simp
    ring
  have hratio : (2 : ℚ) ^ (binExp n d - 52).toNat / (2 : ℚ) ^ (52 - binExp n d).toNat
      = (2 : ℚ) ^ binExp n d / 2 ^ 52 := by
    have h1 : (2 : ℚ) ^ (binExp n d - 52) = (2 : ℚ) ^ binExp n d / 2 ^ 52 := by
      rw [zpow_sub₀ (by norm_num : (2 : ℚ) ≠ 0)]
      norm_num
    rw [← h1, zpow_two_eq (binExp n d - 52)]
    have h2 : (-(binExp n d - 52)).toNat = (52 - binExp n d).toNat := by
      congr 1; ring
    rw [h2]
  rw [hval, abs_mul, hratio]
  have hpos : (0 : ℚ) < (2 : ℚ) ^ binExp n d / 2 ^ 52 := by positivity
  rw [abs_of_pos hpos]
  calc |((roundHalfEven (n * 2 ^ (52 - binExp n d).toNat)
            (d * 2 ^ (binExp n d - 52).toNat) : Nat) : ℚ)
          - ((n * 2 ^ (52 - binExp n d).toNat : Nat) : ℚ)
            / ((d * 2 ^ (binExp n d - 52).toNat : Nat) : ℚ)|
        * ((2 : ℚ) ^ binExp n d / 2 ^ 52)
      ≤ 1 / 2 * ((2 : ℚ) ^ binExp n d / 2 ^ 52) :=
        mul_le_mul_of_nonneg_right herr hpos.le
    _ = (2 : ℚ) ^ binExp n d / 2 ^ 53 := by ring
    _ ≤ (n : ℚ) / (d : ℚ) / 2 ^ 53 := by
        apply div_le_div_of_nonneg_right hexp (by positivity)

theorem roundNearestEven_toRat_pos (n d : Nat) (hn : 0 < n) (hd : 0 < d) :
    0 < (roundNearestEven n d).toRat := by
  have hnq : (0 : ℚ) < n := by exact_mod_cast hn
  have hdq : (0 : ℚ) < d := by exact_mod_cast hd
  have h := (abs_le.mp (roundNearestEven_err n d hn hd)).1
  have hq : (0 : ℚ) < (n : ℚ) / d := by positivity
  have : (n : ℚ) / (d : ℚ) / 2 ^ 53 < (n : ℚ) / d := by
    apply div_lt_self hq; norm_num
  linarith

theorem roundNearestEven_num_pos (n d : Nat) (hn : 0 < n) (hd : 0 < d) :
    0 < (roundNearestEven n d).num := by
  have h := roundNearestEven_toRat_pos n d hn hd
  unfold F64.toRat at h
  rcases Nat.eq_zero_or_pos (roundNearestEven n d).num with h0 | h0
  · rw [h0] at h; simp at h
  · exact h0

/-- Integers below `2 ^ 53` are converted exactly. -/
theorem roundNearestEven_int (n : Nat) (hn : 0 < n) (hlt : n < 2 ^ 53) :
    (roundNearestEven n 1).toRat = (n : ℚ) := by
  have hexp := binExp_le n 1 hn Nat.one_pos
  simp only [Nat.cast_one, div_one] at hexp
  have hlt' : (n : ℚ) < (2 : ℚ) ^ (53 : Int) := by
    have h1 : (n : ℚ) < ((2 ^ 53 : Nat) : ℚ) := by exact_mod_cast hlt
    have h2 : ((2 ^ 53 : Nat) : ℚ) = (2 : ℚ) ^ (53 : Int) := by norm_num
    rw [h2] at h1
    exact h1
  have he : binExp n 1 < 53 :=
    (zpow_lt_zpow_iff_right₀ (by norm_num : (1 : ℚ) < 2)).mp (lt_of_le_of_lt hexp hlt')
  have hB : (binExp n 1 - 52).toNat = 0 := by omega
  unfold roundNearestEven F64.toRat
  simp only [hB, pow_zero, mul_one]
  have hr : roundHalfEven (n * 2 ^ (52 - binExp n 1).toNat) 1
      = n * 2 ^ (52 - binExp n 1).toNat := by
    unfold roundHalfEven
    simp [Nat.mod_one]
  rw [hr]
  push_cast
  field_simp

/-- Division of positive `float64` values has a relative error of at most
`2 ^ (-53)` and a positive result. -/
theorem F64.div_err (a b : F64) (ha : 0 < a.num) (ha2 : 0 < a.den) (hb : 0 < b.num)
    (hb2 : 0 < b.den) :
    |(F64.div a b).toRat - a.toRat / b.toRat| ≤ a.toRat / b.toRat / 2 ^ 53
    ∧ 0 < (F64.div a b).num ∧ 0 < (F64.div a b).den := by
  have h1 : 0 < a.num * b.den := Nat.mul_pos ha hb2
  have h2 : 0 < a.den * b.num := Nat.mul_pos ha2 hb
  have hq : ((a.num * b.den : Nat) : ℚ) / ((a.den * b.num : Nat) : ℚ) = a.toRat / b.toRat := by
    have e1 : (a.den : ℚ) ≠ 0 := by exact_mod_cast ha2.ne'
    have e2 : (b.num : ℚ) ≠ 0 := by exact_mod_cast hb.ne'
    have e3 : (b.den : ℚ) ≠ 0 := by exact_mod_cast hb2.ne'
    unfold F64.toRat
    push_cast
    field_simp
  refine ⟨?_, roundNearestEven_num_pos _ _ h1 h2, roundNearestEven_den_pos _ _⟩
  have := roundNearestEven_err _ _ h1 h2
  rw [hq] at this
  exact this

/-- Error analysis of `400 / (w / h)` in rounded arithmetic: for a quotient `a`
within relative error `u` of `w / h` and a quotient `b` within relative error
`u` of `400 / a`, where `u` is small against `400 * h`, the value `b` stays
below `k + 1` and above `k - 1`, where `k` is `400 * h / w` truncated, and above
`k` when the division of `400 * h` by `w` leaves a remainder. -/
theorem scaled_height_bounds (w h : Nat) (a b u : ℚ) (hw : 0 < w) (hh : 0 < h)
    (hu0 : 0 ≤ u) (hu : (2 * (400 * (h : ℚ)) + 2) * u < 1)
    (ha : |a - (w : ℚ) / (h : ℚ)| ≤ (w : ℚ) / (h : ℚ) * u)
    (hb : |b - 400 / a| ≤ 400 / a * u) :
    b < ((400 * h / w : Nat) : ℚ) + 1
    ∧ ((400 * h / w : Nat) : ℚ) - 1 ≤ b
    ∧ ((400 * h) % w ≠ 0 → ((400 * h / w : Nat) : ℚ) ≤ b) := by
  have hwq : (0 : ℚ) < w := by exact_mod_cast hw
  have hhq : (0 : ℚ) < h := by exact_mod_cast hh
  have hw1 : (1 : ℚ) ≤ w := by exact_mod_cast hw
  have hu1 : u < 1 := by nlinarith
  -- the integer quotient
  have hK1 : ((400 * h / w : Nat) : ℚ) * w ≤ 400 * h := by
    have : (400 * h / w) * w ≤ 400 * h := Nat.div_mul_le_self _ _
    exact_mod_cast this
  have hK2 : (400 : ℚ) * h + 1 ≤ (((400 * h / w : Nat) : ℚ) + 1) * w := by
    have : 400 * h + 1 ≤ (400 * h / w + 1) * w := by
      have e : (400 * h / w + 1) * w = w * (400 * h / w) + w := by ring
      have hdm := Nat.div_add_mod (400 * h) w
      have hml := Nat.mod_lt (400 * h) hw
      omega
    exact_mod_cast this
  have hK3 : (400 * h) % w ≠ 0 → ((400 * h / w : Nat) : ℚ) * w + 1 ≤ 400 * h := by
    intro hrem
    have : (400 * h / w) * w + 1 ≤ 400 * h := by
      have e : (400 * h / w) * w = w * (400 * h / w) := by ring
      have hdm := Nat.div_add_mod (400 * h) w
      omega
    exact_mod_cast this
  generalize ((400 * h / w : Nat) : ℚ) = k at hK1 hK2 hK3 ⊢
  generalize ((400 * h) % w ≠ 0) = R at hK3 ⊢
  obtain ⟨ha1, ha2⟩ := abs_le.mp ha
  -- bounds on `a * h`
  have hah1 : (w : ℚ) * (1 - u) ≤ a * h := by
    have : ((w : ℚ) / h - (w : ℚ) / h * u) * h ≤ a * h :=
      mul_le_mul_of_nonneg_right (by linarith) hhq.le
    have e : ((w : ℚ) / h - (w : ℚ) / h * u) * h = (w : ℚ) * (1 - u) := by
      field_simp
      ring
    linarith
  have hah2 : a * h ≤ (w : ℚ) * (1 + u) := by
    have : a * h ≤ ((w : ℚ) / h + (w : ℚ) / h * u) * h :=
      mul_le_mul_of_nonneg_right (by linarith) hhq.le
    have e : ((w : ℚ) / h + (w : ℚ) / h * u) * h = (w : ℚ) * (1 + u) := by
      field_simp
      ring
    linarith
  have hapos : 0 < a := by
    have h1 : 0 < (w : ℚ) * (1 - u) := mul_pos hwq (by linarith)
    have : 0 < a * h := lt_of_lt_of_le h1 hah1
    exact pos_of_mul_pos_left this hhq.le
  -- bounds on `b * a`
  obtain ⟨hb1, hb2⟩ := abs_le.mp hb
  have hba1 : (400 : ℚ) * (1 - u) ≤ b * a := by
    have : ((400 : ℚ) / a - 400 / a * u) * a ≤ b * a :=
      mul_le_mul_of_nonneg_right (by linarith) hapos.le
    have e : ((400 : ℚ) / a - 400 / a * u) * a = (400 : ℚ) * (1 - u) := by
      field_simp
      ring
    linarith
  have hba2 : b * a ≤ (400 : ℚ) * (1 + u) := by
    have : b * a ≤ ((400 : ℚ) / a + 400 / a * u) * a :=
      mul_le_mul_of_nonneg_right (by linarith) hapos.le
    have e : ((400 : ℚ) / a + 400 / a * u) * a = (400 : ℚ) * (1 + u) := by
      field_simp
      ring
    linarith
  have hbpos : 0 < b := by
    have h1 : 0 < (400 : ℚ) * (1 - u) := mul_pos (by norm_num) (by linarith)
    have : 0 < b * a := lt_of_lt_of_le h1 hba1
    exact pos_of_mul_pos_left this hapos.le
  -- bounds on `b * w`
  have hP1 : b * w * (1 - u) ≤ 400 * h * (1 + u) := by
    have s1 : b * ((w : ℚ) * (1 - u)) ≤ b * (a * h) :=
      mul_le_mul_of_nonneg_left hah1 hbpos.le
    have s2 : b * a * h ≤ (400 : ℚ) * (1 + u) * h :=
      mul_le_mul_of_nonneg_right hba2 hhq.le
    linarith
  have hP2 : 400 * h * (1 - u) ≤ b * w * (1 + u) := by
    have s1 : b * (a * h) ≤ b * ((w : ℚ) * (1 + u)) :=
      mul_le_mul_of_nonneg_left hah2 hbpos.le
    have s2 : (400 : ℚ) * (1 - u) * h ≤ b * a * h :=
      mul_le_mul_of_nonneg_right hba1 hhq.le
    linarith
  -- a value of `b * w` below `400 * h - 1` is excluded
  have hlow : ¬ b * w < 400 * h - 1 := by
    intro hlt
    have s : b * w * (1 + u) ≤ (400 * h - 1) * (1 + u) :=
      mul_le_mul_of_nonneg_right hlt.le (by linarith)
    linarith
  refine ⟨?_, ?_, ?_⟩
  · by_contra hcon
    have hge : k + 1 ≤ b := le_of_not_lt hcon
    have h1 : (k + 1) * w ≤ b * w := mul_le_mul_of_nonneg_right hge hwq.le
    have hPge : (400 : ℚ) * h + 1 ≤ b * w := le_trans hK2 h1
    have s : (400 * h + 1) * (1 - u) ≤ b * w * (1 - u) :=
      mul_le_mul_of_nonneg_right hPge (by linarith)
    linarith
  · by_contra hcon
    have hlt : b < k - 1 := lt_of_not_le hcon
    have h1 : b * w < (k - 1) * w := mul_lt_mul_of_pos_right hlt hwq
    exact hlow (by linarith)
  · intro hrem
    by_contra hcon
    have hlt : b < k := lt_of_not_le hcon
    have h1 : b * w < k * w := mul_lt_mul_of_pos_right hlt hwq
    have := hK3 hrem
    exact hlow (by linarith)

theorem F64.ofInt_nat (n : Nat) (hn : 0 < n) (hlt : n < 2 ^ 53) :
    (F64.ofInt (n : Int)).toRat = (n : ℚ) ∧ 0 < (F64.ofInt (n : Int)).num
      ∧ 0 < (F64.ofInt (n : Int)).den := by
  unfold F64.ofInt
  rw [Int.toNat_ofNat]
  exact ⟨roundNearestEven_int n hn hlt, roundNearestEven_num_pos n 1 hn Nat.one_pos,
    roundNearestEven_den_pos n 1⟩

/-- The resized dimensions: an image at most 400 wide keeps its size; a wider
one gets width 400 and a height that is `400 * h / w` truncated or one less,
and exactly `400 * h / w` truncated when `w` does not divide `400 * h`. -/
theorem resizeDims_spec (w h : Nat) (hw : 0 < w) (hh : 0 < h) (hwb : w < 2 ^ 53)
    (hhb : 400 * h < 2 ^ 51) :
    (w ≤ 400 → resizeDims w h = ((w : Int), (h : Int)))
    ∧ (400 < w → ∃ H : Nat, resizeDims w h = (400, (H : Int))
        ∧ H ≤ 400 * h / w ∧ 400 * h / w ≤ H + 1
        ∧ ((400 * h) % w ≠ 0 → H = 400 * h / w)) := by
  constructor
  · intro hle
    unfold resizeDims
    have : ¬ ((w : Int) > 400) := by omega
    simp [this]
  · intro hgt
    have hh53 : h < 2 ^ 53 := by omega
    obtain ⟨hW, hWn, hWd⟩ := F64.ofInt_nat w hw hwb
    obtain ⟨hH, hHn, hHd⟩ := F64.ofInt_nat h hh hh53
    have hC400 := F64.ofInt_nat 400 (by norm_num) (by norm_num)
    simp only [Nat.cast_ofNat] at hC400
    obtain ⟨hC, hCn, hCd⟩ := hC400
    obtain ⟨hA, hAn, hAd⟩ := F64.div_err _ _ hWn hWd hHn hHd
    obtain ⟨hB, hBn, hBd⟩ := F64.div_err (F64.ofInt 400) _ hCn hCd hAn hAd
    rw [hW, hH] at hA
    rw [hC] at hB
    have hu : (2 * (400 * (h : ℚ)) + 2) * (1 / 2 ^ 53) < 1 := by
      have h1 : (400 : ℚ) * h < 2 ^ 51 := by exact_mod_cast hhb
      have h2 : (2 * (400 * (h : ℚ)) + 2) < 2 ^ 53 := by
        norm_num at h1 ⊢
        linarith
      rw [mul_one_div, div_lt_one (by positivity)]
      exact h2
    obtain ⟨hb1, hb2, hb3⟩ := scaled_height_bounds w h _ _ (1 / 2 ^ 53) hw hh (by positivity) hu
      (by rw [mul_one_div]; exact hA)
      (by rw [mul_one_div]; exact hB)
    obtain ⟨x, hx⟩ : ∃ x : F64, x = F64.div (F64.ofInt 400)
        (F64.div (F64.ofInt (w : Int)) (F64.ofInt (h : Int))) := ⟨_, rfl⟩
    rw [← hx] at hb1 hb2 hb3 hBn hBd
    have hxd : (0 : ℚ) < (x.den : ℚ) := by exact_mod_cast hBd
    have hxr : x.toRat = (x.num : ℚ) / (x.den : ℚ) := rfl
    rw [hxr] at hb1 hb2 hb3
    refine ⟨x.num / x.den, ?_, ?_, ?_, ?_⟩
    · unfold resizeDims
      have : (w : Int) > 400 := by omega
      simp only [this, if_true, F64.toInt, ← hx]
    · -- upper bound
      have h1 : (x.num : ℚ) < (((400 * h / w : Nat) : ℚ) + 1) * x.den := by
        rwa [div_lt_iff₀ hxd] at hb1
      have h2 : x.num < (400 * h / w + 1) * x.den := by exact_mod_cast h1
      have := (Nat.div_lt_iff_lt_mul hBd).mpr h2
      omega
    · -- lower bound
      rcases Nat.eq_zero_or_pos (400 * h / w) with h0 | h0
      · rw [h0]; exact Nat.zero_le _
      · have h1 : (((400 * h / w : Nat) : ℚ) - 1) * x.den ≤ (x.num : ℚ) := by
          rwa [le_div_iff₀ hxd] at hb2
        have h2 : (400 * h / w - 1) * x.den ≤ x.num := by
          have e : (((400 * h / w - 1 : Nat) : ℚ)) = ((400 * h / w : Nat) : ℚ) - 1 := by
            rw [Nat.cast_sub h0]; simp
          have : (((400 * h / w - 1 : Nat) : ℚ)) * x.den ≤ (x.num : ℚ) := by rw [e]; exact h1
          exact_mod_cast this
        have := (Nat.le_div_iff_mul_le hBd).mpr h2
        omega
    · intro hrem
      have h1 : ((400 * h / w : Nat) : ℚ) * x.den ≤ (x.num : ℚ) := by
        have := hb3 hrem
        rwa [le_div_iff₀ hxd] at this
      have h2 : (400 * h / w) * x.den ≤ x.num := by exact_mod_cast h1
      have h3 := (Nat.le_div_iff_mul_le hBd).mpr h2
      have h4 : (x.num : ℚ) < (((400 * h / w : Nat) : ℚ) + 1) * x.den := by
        rwa [div_lt_iff₀ hxd] at hb1
      have h5 : x.num < (400 * h / w + 1) * x.den := by exact_mod_cast h4
      have h6 := (Nat.div_lt_iff_lt_mul hBd).mpr h5
      omega

theorem find?_map_replace (tag : ImgTag) (attrName val : Str)
    (h : tag.any (fun a => a.1 == attrName) = true) :
    (tag.map (fun a => if a.1 == attrName then (attrName, val) else a)).find?
        (fun a => a.1 == attrName) = some (attrName, val) := by
  induction tag with
  | nil => simp at h
  | cons a t ih =>
    rw [List.map_cons, List.find?_cons]
    by_cases ha : (a.1 == attrName) = true
    · simp only [ha, if_true, beq_self_eq_true]
    · have ht : t.any (fun a => a.1 == attrName) = true := by
        simpa [ha] using h
      simp only [ha, Bool.false_eq_true, if_false]
      exact ih ht

theorem find?_map_other (tag : ImgTag) (attrName other val : Str) (hne : other ≠ attrName) :
    (tag.map (fun a => if a.1 == attrName then (attrName, val) else a)).find?
        (fun a => a.1 == other) = tag.find? (fun a => a.1 == other) := by
  induction tag with
  | nil => rfl
  | cons a t ih =>
    rw [List.map_cons, List.find?_cons, List.find?_cons]
    by_cases ha : (a.1 == attrName) = true
    · have ha' : a.1 = attrName := by simpa using ha
      have h1 : (a.1 == other) = false := by
        rw [ha']; simpa using fun h => hne h.symm
      have h2 : (attrName == other) = false := by
        simpa using fun h => hne h.symm
      simp only [ha, if_true, h1, h2]
      exact ih
    · simp only [ha, Bool.false_eq_true, if_false]
      rw [ih]

/-- An attribute reads back the value it was set to. -/
theorem AttrOr_SetAttr_same (tag : ImgTag) (attrName val dflt : Str) :
    AttrOr (SetAttr tag attrName val) attrName dflt = val := by
  unfold AttrOr SetAttr
  by_cases h : tag.any (fun a => a.1 == attrName) = true
  · simp only [h, if_true, find?_map_replace tag attrName val h]
  · simp only [h, Bool.false_eq_true, if_false]
    have hnone : tag.find? (fun a => a.1 == attrName) = none := by
      rw [List.find?_eq_none]
      intro a ha hp
      exact h (List.any_eq_true.mpr ⟨a, ha, hp⟩)
    simp [List.find?_append, hnone]

/-- Setting an attribute leaves the other attributes as they were. -/
theorem AttrOr_SetAttr_other (tag : ImgTag) (attrName other val dflt : Str)
    (hne : other ≠ attrName) :
    AttrOr (SetAttr tag attrName val) other dflt = AttrOr tag other dflt := by
  unfold AttrOr SetAttr
  by_cases h : tag.any (fun a => a.1 == attrName) = true
  · simp only [h, if_true, find?_map_other tag attrName other val hne]
  · simp only [h, Bool.false_eq_true, if_false]
    have h2 : ¬ attrName = other := fun h => hne h.symm
    cases hf : tag.find? (fun a => a.1 == other) with
    | none => simp [List.find?_append, hf, h2]
    | some a => simp [List.find?_append, hf]

theorem Itoa_ne_nil (n : Nat) : Itoa n ≠ [] :=
  toDigitsCore_ne_nil (n + 1) n [] (by omega)

theorem fmtInt_nat (n : Nat) : fmtInt (n : Int) = Itoa n := by
  unfold fmtInt
  have : ¬ ((n : Int) < 0) := by omega
  simp [this]

/-- C11, as the code has it: when the first image tag carries a width `w > 0`
and a height `h > 0` in decimal (`w < 2 ^ 53`, `400 * h < 2 ^ 51`),
`ExtractImageTagFromHTML` renders the tag with width `min(w, 400)`; for
`w ≤ 400` the height stays `h`; for `w > 400` the height is the `float64`
quotient `400 / (w / h)` truncated, which is `400 * h / w` truncated or one
less, and exactly `400 * h / w` truncated when `w` does not divide `400 * h`. -/
theorem C11_resized_attributes (gq : Goquery) (htmlText : Str) (firstImgTag : ImgTag)
    (w h : Nat) (hw : 0 < w) (hh : 0 < h) (hwb : w < 2 ^ 53) (hhb : 400 * h < 2 ^ 51)
    (hfirst : gq.firstImg htmlText = some firstImgTag)
    (hwidth : AttrOr firstImgTag "width".toList [] = Itoa w)
    (hheight : AttrOr firstImgTag "height".toList [] = Itoa h) :
    ExtractImageTagFromHTML gq htmlText = (gq.OuterHtml (resizeImg firstImgTag)).getD []
    ∧ AttrOr (resizeImg firstImgTag) "width".toList [] = Itoa (min w 400)
    ∧ (w ≤ 400 → AttrOr (resizeImg firstImgTag) "height".toList [] = Itoa h)
    ∧ (400 < w → ∃ H : Nat, AttrOr (resizeImg firstImgTag) "height".toList [] = Itoa H
        ∧ H ≤ 400 * h / w ∧ 400 * h / w ≤ H + 1
        ∧ ((400 * h) % w ≠ 0 → H = 400 * h / w)) := by
  have hwh : "width".toList ≠ "height".toList := by decide
  have haw : Atoi (Itoa w) = (w : Int) := by
    rw [Atoi_Itoa]
    have : (w : Int) < 2 ^ 53 := by exact_mod_cast hwb
    omega
  have hah : Atoi (Itoa h) = (h : Int) := by
    rw [Atoi_Itoa]
    have : (400 : Int) * h < 2 ^ 51 := by exact_mod_cast hhb
    omega
  have hres : resizeImg firstImgTag
      = SetAttr (SetAttr firstImgTag "width".toList (fmtInt (resizeDims w h).1))
          "height".toList (fmtInt (resizeDims w h).2) := by
    unfold resizeImg
    have h1 : (w : Int) > 0 := by omega
    have h2 : (h : Int) > 0 := by omega
    simp only [hwidth, hheight, haw, hah, ne_eq, Itoa_ne_nil, not_false_eq_true, and_self,
      if_true, h1, h2]
  obtain ⟨hsmall, hlarge⟩ := resizeDims_spec w h hw hh hwb hhb
  have hW : AttrOr (resizeImg firstImgTag) "width".toList []
      = fmtInt (resizeDims w h).1 := by
    rw [hres, AttrOr_SetAttr_other _ _ _ _ _ hwh, AttrOr_SetAttr_same]
  have hH : AttrOr (resizeImg firstImgTag) "height".toList []
      = fmtInt (resizeDims w h).2 := by
    rw [hres, AttrOr_SetAttr_same]
  refine ⟨?_, ?_, ?_, ?_⟩
  · unfold ExtractImageTagFromHTML
    rw [hfirst]
    cases hout : gq.OuterHtml (resizeImg firstImgTag) <;> simp [hout]
  · rw [hW]
    by_cases hle : w ≤ 400
    · rw [hsmall hle, Nat.min_eq_left hle]
      exact fmtInt_nat w
    · obtain ⟨H, hH', -⟩ := hlarge (by omega)
      rw [hH', Nat.min_eq_right (by omega)]
      exact fmtInt_nat 400
  · intro hle
    rw [hH, hsmall hle]
    exact fmtInt_nat h
  · intro hgt
    obtain ⟨H, hH', hb⟩ := hlarge hgt
    exact ⟨H, by rw [hH, hH']; exact fmtInt_nat H, hb⟩

set_option maxRecDepth 100000 in
/-- C11, instance: a tag of 1000 by 3 is rendered 400 wide. -/
theorem C11_resized_attributes_witness :
    AttrOr (resizeImg [("src".toList, "a.png".toList), ("width".toList, "1000".toList),
        ("height".toList, "3".toList)]) "width".toList [] = Itoa (min 1000 400) :=
  (C11_resized_attributes
    (fixedGoquery [("src".toList, "a.png".toList), ("width".toList, "1000".toList),
      ("height".toList, "3".toList)]) []
    [("src".toList, "a.png".toList), ("width".toList, "1000".toList),
      ("height".toList, "3".toList)] 1000 3 (by decide) (by decide) (by decide) (by decide)
    rfl (by decide) (by decide)).2.1

set_option maxRecDepth 100000 in
/-- C11 as stated fails: a first image tag of width 800 and height 22 is
rendered with height 10, while `400 * 22 / 800` is 11 without remainder. The
quotient `800 / 22` is rounded up in `float64`, so `400` divided by it falls
just below 11 and the conversion to `int` drops the fraction. -/
theorem C11_height_one_below :
    ExtractImageTagFromHTML
        (fixedGoquery [("src".toList, "a.png".toList), ("width".toList, "800".toList),
          ("height".toList, "22".toList)]) []
      = "<img src=\"a.png\" width=\"400\" height=\"10\"/>".toList
    ∧ Itoa (400 * 22 / 800) = "11".toList ∧ 400 * 22 % 800 = 0 := by
  decide

set_option maxRecDepth 100000 in
/-- The example of the specification: 800 by 400 is rendered 400 by 200. -/
theorem ExtractImageTagFromHTML_800_400 :
    ExtractImageTagFromHTML
        (fixedGoquery [("src".toList, "a.png".toList), ("width".toList, "800".toList),
          ("height".toList, "400".toList)]) []
      = "<img src=\"a.png\" width=\"400\" height=\"200\"/>".toList := by
  decide

end Matcha
